import Mathlib

/-!
A verification development for the offer-extraction engine of the
`teklif_listeleme` repository (`main.py`).

The Python code is shallowly embedded: Python `str` values are Lean
`String`s (sequences of Unicode scalar values); `float` results of
`float(str)` are idealized as exact rationals (wrapped in `PyFloatVal`,
which also has constructors for the infinities and NaN accepted by
Python's float parser); fallible operations return `Option`.  The
regular expressions used by the extractors are embedded as values of a
small regex AST together with a backtracking matcher that reproduces
Python `re.search` semantics (leftmost match, ordered alternation,
greedy/lazy quantifiers, capture groups, IGNORECASE folding).

Simplifications, noted where they matter: case folding is modelled by
explicit tables covering ASCII and the Turkish letters appearing in the
patterns (following CPython's sre simple-lowercase plus its i/ı
equivalence class); `\s`, `str.strip` and `str.splitlines` use the six
ASCII whitespace / line-break characters; `\d` and Python float parsing
use ASCII digits; float values are exact rationals (no IEEE rounding or
overflow to inf).  `sanitize_text` needs lone surrogates, which Lean
`Char` cannot carry, so it is modelled separately on lists of code
points.
-/

namespace Teklif

/-! ## Characters: whitespace, digits, case tables -/

def isPySpace (c : Char) : Bool :=
  c == ' ' || c == '\t' || c == '\n' || c == '\r' || c == '\x0B' || c == '\x0C'

def isDig (c : Char) : Bool :=
  48 ≤ c.toNat && c.toNat ≤ 57

def digitVal (c : Char) : Nat := c.toNat - 48

/-- Apply a finite character table, defaulting to the identity. -/
def tableMap (t : List (Char × Char)) (c : Char) : Char :=
  match t.find? (fun p => p.1 == c) with
  | some p => p.2
  | none => c

/-- Lower-case table for Python `str.lower` / `str.upper` style maps
(ASCII plus the Turkish letters used by the program). -/
def lowerTable : List (Char × Char) :=
  [('A', 'a'), ('B', 'b'), ('C', 'c'), ('D', 'd'), ('E', 'e'), ('F', 'f'),
   ('G', 'g'), ('H', 'h'), ('I', 'i'), ('J', 'j'), ('K', 'k'), ('L', 'l'),
   ('M', 'm'), ('N', 'n'), ('O', 'o'), ('P', 'p'), ('Q', 'q'), ('R', 'r'),
   ('S', 's'), ('T', 't'), ('U', 'u'), ('V', 'v'), ('W', 'w'), ('X', 'x'),
   ('Y', 'y'), ('Z', 'z'),
   ('Ç', 'ç'), ('Ğ', 'ğ'), ('İ', 'i'), ('Ö', 'ö'), ('Ş', 'ş'), ('Ü', 'ü')]

def upperTable : List (Char × Char) :=
  [('a', 'A'), ('b', 'B'), ('c', 'C'), ('d', 'D'), ('e', 'E'), ('f', 'F'),
   ('g', 'G'), ('h', 'H'), ('i', 'I'), ('j', 'J'), ('k', 'K'), ('l', 'L'),
   ('m', 'M'), ('n', 'N'), ('o', 'O'), ('p', 'P'), ('q', 'Q'), ('r', 'R'),
   ('s', 'S'), ('t', 'T'), ('u', 'U'), ('v', 'V'), ('w', 'W'), ('x', 'X'),
   ('y', 'Y'), ('z', 'Z'),
   ('ç', 'Ç'), ('ğ', 'Ğ'), ('ı', 'I'), ('ö', 'Ö'), ('ş', 'Ş'), ('ü', 'Ü')]

/-- Case-folding table used for IGNORECASE matching.  It maps every
character to a representative of its equivalence class: CPython's sre
simple lowercase, extended by the documented i/ı equivalence
(`re` matches `ı` against `I` and `İ` against `i` under IGNORECASE). -/
def foldTable : List (Char × Char) :=
  lowerTable ++ [('ı', 'i'), ('ſ', 's')]

def toLowerPy (c : Char) : Char := tableMap lowerTable c

def toUpperPy (c : Char) : Char := tableMap upperTable c

def foldCase (c : Char) : Char := tableMap foldTable c

/-- Characters Python treats as cased letters, for `str.title` word
boundaries (ASCII letters plus the Turkish letters of the tables). -/
def isAlphaPy (c : Char) : Bool :=
  (65 ≤ c.toNat && c.toNat ≤ 90) || (97 ≤ c.toNat && c.toNat ≤ 122) ||
  c == 'Ç' || c == 'Ğ' || c == 'İ' || c == 'Ö' || c == 'Ş' || c == 'Ü' ||
  c == 'ç' || c == 'ğ' || c == 'ı' || c == 'ö' || c == 'ş' || c == 'ü'

/-! ## Strings: strip, removal, splitting -/

def dropWs (l : List Char) : List Char := l.dropWhile isPySpace

/-- Python `str.strip()` (on the modelled whitespace set). -/
def pyStripL (l : List Char) : List Char :=
  (dropWs (dropWs l).reverse).reverse

def pyStrip (s : String) : String := String.mk (pyStripL s.data)

def removeChar (c : Char) (l : List Char) : List Char :=
  l.filter (fun d => !(d == c))

/-- Python `str.split(sep)` for a single-character separator. -/
def splitCharAux (sep : Char) : List Char → List Char → List (List Char)
  | [], acc => [acc.reverse]
  | c :: rest, acc =>
    if c == sep then acc.reverse :: splitCharAux sep rest []
    else splitCharAux sep rest (c :: acc)

def splitChar (sep : Char) (l : List Char) : List (List Char) :=
  splitCharAux sep l []

/-- Python `str.rfind(c)`: index of the last occurrence, `-1` if absent. -/
def rfindI (c : Char) (s : String) : Int :=
  match s.data.reverse.findIdx? (fun d => d == c) with
  | some i => ((s.data.length - 1 - i : Nat) : Int)
  | none => (-1 : Int)

/-! ## Python `float(str)` parsing, idealized over ℚ -/

inductive PyFloatVal where
  | finite (q : ℚ)
  | inf
  | ninf
  | nan
deriving DecidableEq

/-- One maximal run of ASCII digits with single underscores allowed
between digits (Python numeric-literal grouping).  Returns the value,
the number of digits consumed and the rest. -/
def digRun : List Char → Nat → Nat → (Nat × Nat × List Char)
  | [], v, n => (v, n, [])
  | c :: rest, v, n =>
    if isDig c then digRun rest (10 * v + digitVal c) (n + 1)
    else if c == '_' then
      match rest with
      | d :: r2 =>
        if isDig d then digRun r2 (10 * v + digitVal d) (n + 1)
        else (v, n, c :: rest)
      | [] => (v, n, c :: rest)
    else (v, n, c :: rest)

/-- Optional leading sign; returns (isNegative, rest). -/
def pfSign : List Char → (Bool × List Char)
  | '+' :: r => (false, r)
  | '-' :: r => (true, r)
  | l => (false, l)

/-- Mantissa: `digits [. digits]` with at least one digit overall.
Returns the integer significand, the number of fractional digits (the
value is significand / 10^scale) and the rest.  All arithmetic stays
in ℕ so that concrete runs reduce inside the kernel. -/
def pfMant (l : List Char) : Option (Nat × Nat × List Char) :=
  let p := match l with
    | c :: _ => if isDig c then digRun l 0 0 else (0, 0, l)
    | [] => (0, 0, l)
  match p.2.2 with
  | '.' :: l2 =>
    let f := match l2 with
      | c :: _ => if isDig c then digRun l2 0 0 else (0, 0, l2)
      | [] => (0, 0, l2)
    if p.2.1 + f.2.1 == 0 then none
    else some (p.1 * 10 ^ f.2.1 + f.1, f.2.1, f.2.2)
  | _ =>
    if p.2.1 == 0 then none else some (p.1, 0, p.2.2)

/-- Optional exponent part `e[±]digits`, folded into the
significand/scale pair. -/
def pfExp (num scale : Nat) (l : List Char) : Option (Nat × Nat × List Char) :=
  match l with
  | c :: r =>
    if c == 'e' || c == 'E' then
      let sp := pfSign r
      match sp.2 with
      | d :: _ =>
        if isDig d then
          let e := digRun sp.2 0 0
          if sp.1 then some (num, scale + e.1, e.2.2)
          else some (num * 10 ^ e.1, scale, e.2.2)
        else none
      | [] => none
    else some (num, scale, c :: r)
  | [] => some (num, scale, [])

/-- Case-insensitive (ASCII) literal keyword consumption. -/
def asciiCiDrop : List Char → List Char → Option (List Char)
  | [], l => some l
  | _ :: _, [] => none
  | k :: ks, c :: cs => if toLowerPy c == k then asciiCiDrop ks cs else none

/-- Model of Python `float(str)`: optional whitespace, optional sign,
`inf`/`infinity`/`nan` or a decimal mantissa with optional exponent,
optional trailing whitespace.  Finite values are exact rationals,
assembled by a single `mkRat`. -/
def pyFloatOfStr (s : String) : Option PyFloatVal :=
  let l := dropWs s.data
  let sp := pfSign l
  match asciiCiDrop ['i', 'n', 'f', 'i', 'n', 'i', 't', 'y'] sp.2 with
  | some r => if dropWs r == [] then some (if sp.1 then .ninf else .inf) else none
  | none =>
  match asciiCiDrop ['i', 'n', 'f'] sp.2 with
  | some r => if dropWs r == [] then some (if sp.1 then .ninf else .inf) else none
  | none =>
  match asciiCiDrop ['n', 'a', 'n'] sp.2 with
  | some r => if dropWs r == [] then some .nan else none
  | none =>
  match pfMant sp.2 with
  | none => none
  | some m =>
    match pfExp m.1 m.2.1 m.2.2 with
    | none => none
    | some e =>
      if dropWs e.2.2 == [] then
        some (.finite (mkRat (if sp.1 then -(e.1 : Int) else (e.1 : Int)) (10 ^ e.2.1)))
      else none

/-! ## `normalize_currency` and `parse_amount` (main.py 211-230, 366-410) -/

def pyUpper (s : String) : String := String.mk (s.data.map toUpperPy)

/-- `normalize_currency` from main.py: case-fold, strip, then map the
alias sets to canonical codes; anything else passes through upper-cased. -/
def normalize_currency : Option String → Option String
  | none => none
  | some c =>
    if c == "" then none
    else
      let u := pyStrip (pyUpper c)
      if u == "€" || u == "EURO" || u == "EUR" then some "EUR"
      else if u == "₺" || u == "TL" || u == "TRY" then some "TL"
      else if u == "USD" then some "USD"
      else some u

/-- `raw_amount.replace(" ", "").strip()` from `parse_amount`. -/
def despaced (raw : String) : String :=
  pyStrip (String.mk (removeChar ' ' raw.data))

/-- Length of `raw_amount.replace(".", "").replace(",", "")` — the
noise guard counts the characters left after removing separators. -/
def sepDigitsLen (r : String) : Nat :=
  (removeChar ',' (removeChar '.' r.data)).length

/-- The separator-normalization cascade inside `parse_amount`:
both separators → the one occurring last is decimal; only `,` → decimal
comma; only `.` → thousands separator exactly when the final
dot-separated part has length 3. -/
def sepNormalize (r : String) : String :=
  if r.data.contains ',' && r.data.contains '.' then
    if rfindI ',' r > rfindI '.' r then
      String.mk ((removeChar '.' r.data).map (fun c => if c == ',' then '.' else c))
    else
      String.mk (removeChar ',' r.data)
  else if r.data.contains ',' then
    String.mk (r.data.map (fun c => if c == ',' then '.' else c))
  else if r.data.contains '.' then
    let parts := splitChar '.' r.data
    if decide (1 < parts.length) && (parts.getLast?.getD []).length == 3 then
      String.mk (removeChar '.' r.data)
    else r
  else r

/-- Guard on the separator-stripped length, then float conversion of a
pre-normalized string, pairing the amount with the normalized currency. -/
def amountEval (r : String) (norm : String) (currency : Option String) :
    Option PyFloatVal × Option String :=
  if sepDigitsLen r < 3 then (none, none)
  else
    match pyFloatOfStr norm with
    | some v => (some v, normalize_currency currency)
    | none => (none, none)

/-- `parse_amount` from main.py (lines 366-410). -/
def parse_amount (raw : String) (currency : Option String) :
    Option PyFloatVal × Option String :=
  amountEval (despaced raw) (sepNormalize (despaced raw)) currency

/-! ## A small regex AST with Python `re.search` semantics

Quantifiers other than `?` appear in the program's patterns only over
single-character classes, which keeps the backtracking matcher
structurally terminating.  Alternation is ordered, `?`/`*`/`+` are
greedy, `{n,}?` and `+?` are lazy, exactly as in Python. -/

/-- Captured groups, most recent first (Python keeps the last match of
a group; the matcher prepends, so lookup takes the first hit). -/
abbrev Caps := List (Nat × List Char)

inductive RE where
  | fail
  | eps
  | cls (p : Char → Bool)
  | seq (a b : RE)
  | alt (a b : RE)
  | opt (a : RE)
  | starC (p : Char → Bool)
  | plusC (p : Char → Bool)
  | lazyRepC (p : Char → Bool) (min : Nat)
  | group (n : Nat) (a : RE)

/-- Greedy Kleene star over a character class, in continuation style:
consume as much as possible, backtracking one character at a time. -/
def gStar (p : Char → Bool) (k : List Char → Option α) : List Char → Option α
  | [] => k []
  | c :: rest =>
    if p c then
      match gStar p k rest with
      | some r => some r
      | none => k (c :: rest)
    else k (c :: rest)

/-- Lazy repetition `{min,}?` over a character class: consume the
minimum, then extend one character at a time only on failure. -/
def lRep (p : Char → Bool) (k : List Char → Option α) : Nat → List Char → Option α
  | 0, [] => k []
  | _ + 1, [] => none
  | 0, c :: rest =>
    (match k (c :: rest) with
     | some r => some r
     | none => if p c then lRep p k 0 rest else none)
  | n + 1, c :: rest => if p c then lRep p k n rest else none

/-- The backtracking matcher, continuation-passing: `mat R cs caps k`
attempts to match `R` at the head of `cs` and hands the rest of the
input and the updated captures to `k`, backtracking while `k` fails. -/
def mat : RE → List Char → Caps → (List Char → Caps → Option α) → Option α
  | .fail, _, _, _ => none
  | .eps, cs, caps, k => k cs caps
  | .cls p, cs, caps, k =>
    match cs with
    | [] => none
    | c :: rest => if p c then k rest caps else none
  | .seq a b, cs, caps, k =>
    mat a cs caps (fun cs2 caps2 => mat b cs2 caps2 k)
  | .alt a b, cs, caps, k =>
    (match mat a cs caps k with
     | some r => some r
     | none => mat b cs caps k)
  | .opt a, cs, caps, k =>
    (match mat a cs caps k with
     | some r => some r
     | none => k cs caps)
  | .starC p, cs, caps, k => gStar p (fun cs2 => k cs2 caps) cs
  | .plusC p, cs, caps, k =>
    (match cs with
     | [] => none
     | c :: rest => if p c then gStar p (fun cs2 => k cs2 caps) rest else none)
  | .lazyRepC p n, cs, caps, k => lRep p (fun cs2 => k cs2 caps) n cs
  | .group n a, cs, caps, k =>
    mat a cs caps
      (fun cs2 caps2 => k cs2 ((n, cs.take (cs.length - cs2.length)) :: caps2))

/-- A match: start index, end index, captured groups. -/
abbrev REMatch := Nat × Nat × Caps

/-- Scan candidate start positions left to right (leftmost match). -/
def searchAux (P : RE) : List Char → Nat → Option REMatch
  | cs, pos =>
    match mat P cs []
      (fun rest caps => some (pos, pos + (cs.length - rest.length), caps)) with
    | some m => some m
    | none =>
      match cs with
      | [] => none
      | _ :: t => searchAux P t (pos + 1)

/-- Python `pattern.search(s)`. -/
def pySearch (P : RE) (s : String) : Option REMatch :=
  searchAux P s.data 0

def capLookup (caps : Caps) (n : Nat) : Option (List Char) :=
  match caps.find? (fun pr => pr.1 == n) with
  | some pr => some pr.2
  | none => none

/-- `match.group(n)` as a string, empty if the group did not
participate (the program only reads groups its patterns always bind). -/
def capStr (m : REMatch) (n : Nat) : String :=
  String.mk ((capLookup m.2.2 n).getD [])

/-- `match.lastindex` modelled as the largest bound group number. -/
def lastIdxCaps (caps : Caps) : Nat :=
  caps.foldr (fun pr acc => max pr.1 acc) 0

/-- `re.split(P, s)[0]`: the prefix before the first match (the
program only ever uses element 0 of its splits). -/
def splitFirst (P : RE) (s : String) : String :=
  match pySearch P s with
  | some m => String.mk (s.data.take m.1)
  | none => s

/-! ## The program's patterns -/

/-- Case-insensitive literal (IGNORECASE folding on both sides). -/
def litL : List Char → RE
  | [] => .eps
  | c :: cs => .seq (.cls (fun d => foldCase d == foldCase c)) (litL cs)

def lit (s : String) : RE := litL s.data

/-- Ordered alternation of case-insensitive literals. -/
def altsL : List String → RE
  | [] => .fail
  | s :: rest => .alt (lit s) (altsL rest)

def rcat : List RE → RE := fun l => l.foldr RE.seq RE.eps

def wsStar : RE := .starC isPySpace
def wsPlus : RE := .plusC isPySpace
def colonDash : RE := .cls (fun c => c == ':' || c == '-')
/-- Python `.` (any character except a newline). -/
def dotC (c : Char) : Bool := !(c == '\n')
/-- The `[\d\.\,\s]` class of the amount patterns. -/
def amtC (c : Char) : Bool := isDig c || c == '.' || c == ',' || isPySpace c
/-- `(?:\([^\)]*\))?` — an optional parenthesized run. -/
def optParen : RE :=
  .opt (rcat [.cls (fun c => c == '('), .starC (fun c => !(c == ')')), .cls (fun c => c == ')')])

/-- The currency alternation `(€|TL|₺|USD|EUR|euro)`. -/
def curAltTR : RE := altsL ["€", "TL", "₺", "USD", "EUR", "euro"]
/-- The currency alternation `(€|TL|₺|USD|EUR|euro|\$)`. -/
def curAltEN : RE := altsL ["€", "TL", "₺", "USD", "EUR", "euro", "$"]

/-- Shared shape of the amount patterns: prefix, then the lazily
matched amount group 1, `\s*`, and the currency group 2. -/
def mkAmountPat (pre : List RE) (cur : RE) : RE :=
  rcat (pre ++ [.group 2 cur])

/-- AMOUNT_PATTERNS[0] (Turkish labels). -/
def amountPat0 : RE :=
  mkAmountPat
    [.alt (rcat [lit "Toplam", wsStar, .opt (.alt (lit "Tutar") (lit "Fiyat"))])
       (.alt (rcat [lit "Teklif", wsStar, lit "Tutarı"]) (lit "Tutar")),
     wsStar, .opt colonDash, wsStar, optParen, wsStar,
     .group 1 (.lazyRepC amtC 4), wsStar]
    curAltTR

/-- AMOUNT_PATTERNS[1] (English labels; note the mandatory `\s+`). -/
def amountPat1 : RE :=
  mkAmountPat
    [.alt (lit "Sum")
       (.alt (rcat [lit "Total", wsStar,
                    .opt (altsL ["Price", "Quote", "Cost", "Amount"])])
          (rcat [lit "Grand", wsStar, lit "Total"])),
     wsStar, .opt colonDash, wsStar, optParen, wsPlus,
     .group 1 (.lazyRepC amtC 4), wsStar]
    curAltEN

/-- AMOUNT_PATTERNS[2] (bare number + currency symbol). -/
def amountPat2 : RE :=
  mkAmountPat [.group 1 (.lazyRepC amtC 4), wsStar] curAltEN

def AMOUNT_PATTERNS : List RE := [amountPat0, amountPat1, amountPat2]

/-- `(?:Firma\s*Adı|Firma|Company\s*Name)` (extract_firm's label). -/
def firmKw : RE :=
  .alt (rcat [lit "Firma", wsStar, lit "Adı"])
    (.alt (lit "Firma") (rcat [lit "Company", wsStar, lit "Name"]))

/-- `(?:Firma\s*Adı|Firma|Company\s*Name)\s*[:\-]`. -/
def firmLabelRE : RE := rcat [firmKw, wsStar, colonDash]

/-- `(?:Firma\s*Adı|Firma|Company\s*Name)\s*[:\-]\s*(.+)`. -/
def firmExtractRE : RE :=
  rcat [firmKw, wsStar, colonDash, wsStar, .group 1 (.plusC dotC)]

/-- `(?:Konu|Teklif\s*Konusu)`. -/
def subjKw : RE := .alt (lit "Konu") (rcat [lit "Teklif", wsStar, lit "Konusu"])

def subjLabelRE : RE := rcat [subjKw, wsStar, colonDash]

def subjExtractRE : RE :=
  rcat [subjKw, wsStar, colonDash, wsStar, .group 1 (.plusC dotC)]

/-- Label pattern shape `KW\s*[:\-]?\s*(.+)` shared by the fallback
pattern tables. -/
def labelPat (kw : RE) : RE :=
  rcat [kw, wsStar, .opt colonDash, wsStar, .group 1 (.plusC dotC)]

/-- FIRM_PATTERNS from main.py lines 19-26. -/
def FIRM_PATTERNS : List RE :=
  [labelPat (.alt (rcat [lit "Firma", wsStar, lit "Adı"])
      (altsL ["Firma", "Şirket", "Müşteri", "Kurum", "Kuruluş"])),
   labelPat (.alt (rcat [lit "Company", wsStar, lit "Name"])
      (altsL ["Company", "Client", "Customer", "Organization"])),
   .group 1 (rcat [.lazyRepC dotC 1,
      .alt (lit "A.Ş.")
        (.alt (lit "A.S.")
          (.alt (rcat [lit "Ltd", .opt (.cls (fun c => c == '.')), wsStar,
                       lit "Şti", .opt (.cls (fun c => c == '.'))])
            (altsL ["San.", "Tic.", "Ltd.", "Inc.", "Corp.", "GmbH"])))])]

/-- GREETINGS_PATTERN `(?:Sayın|Dear)\s+(.+)`. -/
def greetRE : RE :=
  rcat [.alt (lit "Sayın") (lit "Dear"), wsPlus, .group 1 (.plusC dotC)]

/-- SUBJECT_PATTERNS from main.py lines 30-41. -/
def SUBJECT_PATTERNS : List RE :=
  [labelPat (lit "Konu"),
   labelPat (rcat [lit "Teklif", wsStar, lit "Konusu"]),
   labelPat (lit "İlgi"),
   labelPat (lit "Subject"),
   labelPat (lit "Regarding"),
   labelPat (lit "Project"),
   labelPat (altsL ["Re", "RE", "Ref"])]

/-- The trailing-noise stopword pattern
`\s+(?:Referans|Teklif\s*No|Tarih|Sayfa|Your|Offer|Page|History|Topic)`. -/
def stopRE : RE :=
  rcat [wsPlus,
    .alt (altsL ["Referans"])
      (.alt (rcat [lit "Teklif", wsStar, lit "No"])
        (altsL ["Tarih", "Sayfa", "Your", "Offer", "Page", "History", "Topic"]))]

/-- `\n|\r` (the newline split in extract_field). -/
def nlRE : RE := .alt (.cls (fun c => c == '\n')) (.cls (fun c => c == '\r'))

/-! ## Python string operations used by the extractors -/

/-- `str.splitlines` on `\n`, `\r\n` and `\r` (the further Unicode line
breaks Python also splits on are immaterial here: every use strips and
filters the resulting lines). -/
def splitLinesL : List Char → List Char → List (List Char)
  | [], acc => [acc.reverse]
  | '\r' :: '\n' :: rest, acc => acc.reverse :: splitLinesL rest []
  | '\r' :: rest, acc => acc.reverse :: splitLinesL rest []
  | '\n' :: rest, acc => acc.reverse :: splitLinesL rest []
  | c :: rest, acc => splitLinesL rest (c :: acc)

/-- `[line.strip() for line in page_text.splitlines() if line.strip()]`. -/
def pyLines (page : String) : List String :=
  ((splitLinesL page.data []).map (fun l => String.mk (pyStripL l))).filter
    (fun s => !(s == ""))

/-- `s[:200]`. -/
def take200 (s : String) : String := String.mk (s.data.take 200)

/-- Python's `str.title()`: first letter of each cased run upper-cased,
the rest lower-cased. -/
def pyTitleAux : Bool → List Char → List Char
  | _, [] => []
  | prev, c :: rest =>
    (if isAlphaPy c then (if prev then toLowerPy c else toUpperPy c) else c) ::
      pyTitleAux (isAlphaPy c) rest

def pyTitle (s : String) : String := String.mk (pyTitleAux false s.data)

/-- Case-insensitive "starts with" under the IGNORECASE fold. -/
def ciStarts : List Char → List Char → Bool
  | [], _ => true
  | _ :: _, [] => false
  | p :: ps, c :: cs => foldCase c == foldCase p && ciStarts ps cs

/-- Fuel-indexed worker for literal substitution; the fuel is an upper
bound on the input length (each step consumes at least one character
and spends exactly one fuel unit). -/
def subLitFuel (pat rep : List Char) : Nat → List Char → List Char
  | _, [] => []
  | 0, l => l
  | fuel + 1, c :: rest =>
    if 0 < pat.length && ciStarts pat (c :: rest) then
      rep ++ subLitFuel pat rep fuel ((c :: rest).drop pat.length)
    else c :: subLitFuel pat rep fuel rest

/-- `re.sub(re.escape(pat), rep, s, flags=IGNORECASE)`: non-overlapping
left-to-right case-insensitive literal replacement. -/
def subLitL (pat rep s : List Char) : List Char :=
  subLitFuel pat rep s.length s

/-- `_ABBREVIATIONS` from main.py lines 65-75, in insertion order. -/
def ABBREV_SUBS : List (String × String) :=
  [("a.ş", "A.Ş"), ("a.ş.", "A.Ş."), ("ltd", "Ltd."), ("ltd.", "Ltd."),
   ("şti", "Şti."), ("şti.", "Şti."), ("inc", "Inc."), ("inc.", "Inc."),
   ("gmbh", "GmbH")]

def applyAbbrevs (s : String) : String :=
  ABBREV_SUBS.foldl (fun acc pr => String.mk (subLitL pr.1.data pr.2.data acc.data)) s

/-- `normalize_firm_name` from main.py lines 233-249. -/
def normalize_firm_name (firm : String) : String :=
  if firm = "" ∨ firm.length ≤ 2 then firm
  else pyStrip (applyAbbrevs (pyTitle firm))

/-! ## Field extraction -/

/-- `extract_field` from main.py lines 252-268. -/
def extract_field : List RE → String → String
  | [], _ => ""
  | p :: ps, text =>
    match pySearch p text with
    | none => extract_field ps text
    | some m =>
      let v1 := pyStrip (capStr m 1)
      let v2 := pyStrip (splitFirst nlRE v1)
      pyStrip (splitFirst stopRE v2)

def wordChar (c : Char) : Bool := isAlphaPy c || isDig c || c == '_'

/-- Whether a case-insensitive whole-word occurrence of `w` starts here
(`\bw\b` at the head of `l`, with `prev` the preceding character). -/
def wordAt (w : List Char) (prev : Option Char) (l : List Char) : Bool :=
  (match prev with
   | some p => !(wordChar p)
   | none => true) &&
  ciStarts w l &&
  (match l.drop w.length with
   | [] => true
   | d :: _ => !(wordChar d))

/-- `re.search(r"\b(hanım|bey)\b", s, IGNORECASE)` as a boolean. -/
def hasHonorificAux : Option Char → List Char → Bool
  | _, [] => false
  | prev, c :: rest =>
    wordAt ['h', 'a', 'n', 'ı', 'm'] prev (c :: rest) ||
    wordAt ['b', 'e', 'y'] prev (c :: rest) ||
    hasHonorificAux (some c) rest

def hasHonorific (s : String) : Bool := hasHonorificAux none s.data

/-- The same-line branch of extract_firm's label scan
(main.py lines 287-299). -/
def firmSameLine (line : String) : Option String :=
  match pySearch firmExtractRE line with
  | none => none
  | some m =>
    let f1 := pyStrip (capStr m 1)
    let firm := pyStrip (splitFirst stopRE f1)
    if firm ≠ "" ∧ 2 < firm.length then some (normalize_firm_name firm) else none

/-- The next-line branch of extract_firm's label scan
(main.py lines 300-310). -/
def firmNextLine (lines : List String) (i : Nat) : Option String :=
  if i + 1 < lines.length then
    let f1 := pyStrip (lines.getD (i + 1) "")
    let firm := pyStrip (splitFirst stopRE f1)
    if firm ≠ "" ∧ 2 < firm.length then some (normalize_firm_name firm) else none
  else none

/-- `for i, line in enumerate(lines[:20])` label loop of extract_firm.
The fuel starts at 20, the window bound of the enumeration. -/
def scanFirmLabels (lines : List String) : Nat → Nat → Option String
  | 0, _ => none
  | fuel + 1, i =>
    if i < lines.length ∧ i < 20 then
      let line := lines.getD i ""
      if (pySearch firmLabelRE line).isSome then
        match firmSameLine line with
        | some r => some r
        | none =>
          match firmNextLine lines i with
          | some r => some r
          | none => scanFirmLabels lines fuel (i + 1)
      else scanFirmLabels lines fuel (i + 1)
    else none

/-- The greetings fallback loop over `lines[:15]`
(main.py lines 320-329). -/
def greetScan : List String → Option String
  | [] => none
  | line :: rest =>
    match pySearch greetRE line with
    | none => greetScan rest
    | some m =>
      let cand := pyStrip (capStr m 1)
      if hasHonorific cand then greetScan rest
      else if 2 < cand.length then some (normalize_firm_name cand)
      else greetScan rest

/-- One page of extract_firm's cascade: label scan, header-block
fallback, greetings fallback. -/
def firmPage (page : String) : Option String :=
  let lines := pyLines page
  if lines.isEmpty then none
  else
    match scanFirmLabels lines 20 0 with
    | some r => some r
    | none =>
      let hb := String.intercalate "\n" (lines.take 12)
      let firm := extract_field FIRM_PATTERNS hb
      if firm ≠ "" ∧ 2 < firm.length then some (normalize_firm_name firm)
      else greetScan (lines.take 15)

def firmPages : List String → String
  | [] => ""
  | p :: rest =>
    match firmPage p with
    | some r => r
    | none => firmPages rest

/-- `extract_firm` from main.py lines 271-332 (first three pages). -/
def extract_firm (pages_text : List String) : String :=
  firmPages (pages_text.take 3)

/-- The same-line branch of extract_subject's label scan
(main.py lines 349-352). -/
def subjSameLine (line : String) : Option String :=
  match pySearch subjExtractRE line with
  | none => none
  | some m => some (take200 (pyStrip (capStr m 1)))

/-- `for i, line in enumerate(lines[:25])` label loop of
extract_subject; note the untruncated-unclipped next-line return. -/
def scanSubjLabels (lines : List String) : Nat → Nat → Option String
  | 0, _ => none
  | fuel + 1, i =>
    if i < lines.length ∧ i < 25 then
      let line := lines.getD i ""
      if (pySearch subjLabelRE line).isSome then
        match subjSameLine line with
        | some r => some r
        | none =>
          if i + 1 < lines.length then
            some (take200 (pyStrip (lines.getD (i + 1) "")))
          else scanSubjLabels lines fuel (i + 1)
      else scanSubjLabels lines fuel (i + 1)
    else none

/-- One page of extract_subject's cascade. -/
def subjPage (page : String) : Option String :=
  let lines := pyLines page
  if lines.isEmpty then none
  else
    match scanSubjLabels lines 25 0 with
    | some r => some r
    | none =>
      let hb := String.intercalate "\n" (lines.take 18)
      let subject := extract_field SUBJECT_PATTERNS hb
      if subject ≠ "" then some subject else none

def subjPages : List String → String
  | [] => ""
  | p :: rest =>
    match subjPage p with
    | some r => r
    | none => subjPages rest

/-- `extract_subject` from main.py lines 335-363. -/
def extract_subject (pages_text : List String) : String :=
  subjPages (pages_text.take 3)

/-- One pattern applied to one page inside
`extract_amount_from_pages`: first regex match of the page, group 1 as
the raw amount, group 2 as the currency when bound, then
`parse_amount`; `none` when there is no match or the amount is null. -/
def tryPatPage (pat : RE) (page : String) :
    Option (Option PyFloatVal × Option String) :=
  match pySearch pat page with
  | none => none
  | some m =>
    let raw := pyStrip (capStr m 1)
    let cur := if 2 ≤ lastIdxCaps m.2.2 then (capLookup m.2.2 2).map String.mk
               else none
    match parse_amount raw cur with
    | (some a, c) => some (some a, c)
    | (none, _) => none

def amountPageLoop (pat : RE) : List String → Option (Option PyFloatVal × Option String)
  | [] => none
  | pg :: rest =>
    match tryPatPage pat pg with
    | some r => some r
    | none => amountPageLoop pat rest

def amountPatLoop : List RE → List String → Option PyFloatVal × Option String
  | [], _ => (none, none)
  | pat :: pats, pages =>
    match amountPageLoop pat pages with
    | some r => r
    | none => amountPatLoop pats pages

/-- `extract_amount_from_pages` from main.py lines 413-424: for each
pattern in order, scan all pages for a match whose amount parses. -/
def extract_amount_from_pages (pages_text : List String) :
    Option PyFloatVal × Option String :=
  amountPatLoop AMOUNT_PATTERNS pages_text

/-! ## Classifier and orchestrator -/

/-- `looks_like_offer` from main.py lines 427-443. -/
def looks_like_offer (firm subject : String) (amount : Option PyFloatVal) : Bool :=
  let f1 : Nat := if firm ≠ "" ∧ 2 < firm.length then 1 else 0
  let f2 : Nat := if subject ≠ "" ∧ 2 < subject.length then 1 else 0
  let f3 : Nat := if amount.isSome then 1 else 0
  decide (2 ≤ f1 + f2 + f3)

structure OfferRecord where
  file_path : String
  firm : String
  subject : String
  amount : Option PyFloatVal
  currency : Option String
deriving DecidableEq

/-- `parse_offer` from main.py lines 446-459, taken from the page-text
list onward (the PDF reading `extract_pages_from_pdf` performs is I/O
by an external collaborator and is not part of the core). -/
def parse_offer (path : String) (pages_text : List String) : Option OfferRecord :=
  let firm := extract_firm pages_text
  let subject := extract_subject pages_text
  let ac := extract_amount_from_pages pages_text
  if looks_like_offer firm subject ac.1 then
    some ⟨path, firm, subject, ac.1, ac.2⟩
  else none

/-! ## `sanitize_text` (main.py lines 206-208)

`value.encode("utf-8", errors="surrogatepass").decode("utf-8",
errors="replace")`.  Python strings may hold lone surrogates, which
Lean `Char` cannot, so this one function is modelled on raw code-point
lists.  Encoding is partial (`none` models an exception, which
surrogatepass avoids for every code point below 0x110000); decoding
with `errors="replace"` is total and substitutes U+FFFD following
CPython's maximal-subpart policy. -/

/-- A Python `str`: a list of code points, possibly lone surrogates. -/
abbrev PyStr := List Nat

def pyValidStr (s : PyStr) : Prop := ∀ c ∈ s, c < 1114112

/-- UTF-8 encoding of one code point with `errors="surrogatepass"`:
surrogates are encoded like any other 3-byte value. -/
def encChar (c : Nat) : Option (List Nat) :=
  if c < 128 then some [c]
  else if c < 2048 then some [192 + c / 64, 128 + c % 64]
  else if c < 65536 then
    some [224 + c / 4096, 128 + c / 64 % 64, 128 + c % 64]
  else if c < 1114112 then
    some [240 + c / 262144, 128 + c / 4096 % 64, 128 + c / 64 % 64, 128 + c % 64]
  else none

def encAll : PyStr → Option (List Nat)
  | [] => some []
  | c :: rest =>
    match encChar c, encAll rest with
    | some bs, some bs2 => some (bs ++ bs2)
    | _, _ => none

def contB (b : Nat) : Bool := 128 ≤ b && b < 192

/-- Valid second byte for a 3-byte lead (excludes overlong forms and
surrogates, as strict UTF-8 decoding does). -/
def valid2nd3 (b b2 : Nat) : Bool :=
  if b == 224 then 160 ≤ b2 && b2 < 192
  else if b == 237 then 128 ≤ b2 && b2 < 160
  else contB b2

def valid2nd4 (b b2 : Nat) : Bool :=
  if b == 240 then 144 ≤ b2 && b2 < 192
  else if b == 244 then 128 ≤ b2 && b2 < 144
  else contB b2

/-- One decoding step: given the lead byte and the remaining bytes,
the emitted code point (U+FFFD = 65533 on error) and how many of the
remaining bytes are consumed in addition to the lead. -/
def decStep (b : Nat) (rest : List Nat) : Nat × Nat :=
  if b < 128 then (b, 0)
  else if b < 194 then (65533, 0)
  else if b < 224 then
    match rest with
    | b2 :: _ => if contB b2 then ((b - 192) * 64 + (b2 - 128), 1) else (65533, 0)
    | [] => (65533, 0)
  else if b < 240 then
    match rest with
    | b2 :: r2 =>
      if valid2nd3 b b2 then
        match r2 with
        | b3 :: _ =>
          if contB b3 then ((b - 224) * 4096 + (b2 - 128) * 64 + (b3 - 128), 2)
          else (65533, 1)
        | [] => (65533, 1)
      else (65533, 0)
    | [] => (65533, 0)
  else if b < 245 then
    match rest with
    | b2 :: r2 =>
      if valid2nd4 b b2 then
        match r2 with
        | b3 :: r3 =>
          if contB b3 then
            match r3 with
            | b4 :: _ =>
              if contB b4 then
                ((b - 240) * 262144 + (b2 - 128) * 4096 + (b3 - 128) * 64 +
                  (b4 - 128), 3)
              else (65533, 2)
            | [] => (65533, 2)
          else (65533, 1)
        | [] => (65533, 1)
      else (65533, 0)
    | [] => (65533, 0)
  else (65533, 0)

/-- Fuel-indexed decoding worker (the fuel bounds the input length;
each step consumes the lead byte plus `(decStep _).2` continuations). -/
def decRepFuel : Nat → List Nat → PyStr
  | _, [] => []
  | 0, _ => []
  | fuel + 1, b :: rest =>
    (decStep b rest).1 :: decRepFuel fuel (rest.drop (decStep b rest).2)

/-- UTF-8 decoding with `errors="replace"`: each maximal subpart of an
ill-formed sequence becomes one U+FFFD (65533). -/
def decRep (l : List Nat) : PyStr := decRepFuel l.length l

/-- `sanitize_text`: encode with surrogatepass, decode with replace.
`none` models an encoding exception (impossible for valid inputs). -/
def sanitize_text (s : PyStr) : Option PyStr := (encAll s).map decRep

end Teklif

namespace Teklif

/-! ## Claims about `parse_amount` (C1, C2, C3) -/

/-- Spec-side normalization for claim C1 (refinement target, following
the spec's words): with both separators present, whichever occurs last
is the decimal separator (turned into a dot) and the other is
stripped. -/
def lastSepSpecNorm (r : String) : String :=
  if rfindI ',' r > rfindI '.' r then
    String.mk ((removeChar '.' r.data).map (fun c => if c == ',' then '.' else c))
  else String.mk (removeChar ',' r.data)

/-- C1. When the raw amount contains both a comma and a dot (after
whitespace removal), `parse_amount` treats whichever separator occurs
last as the decimal separator and strips the other; in particular
`parse_amount "1.677 289,00" "Euro" = (1677289, "EUR")` and
`parse_amount "1,234.56" "USD" = (1234.56, "USD")`. -/
theorem c1_last_separator_decides :
    (∀ raw currency, (despaced raw).data.contains ',' = true →
        (despaced raw).data.contains '.' = true →
        parse_amount raw currency =
          amountEval (despaced raw) (lastSepSpecNorm (despaced raw)) currency) ∧
    parse_amount "1.677 289,00" (some "Euro") =
      (some (.finite 1677289), some "EUR") ∧
    parse_amount "1,234.56" (some "USD") =
      (some (.finite (mkRat 123456 100)), some "USD") := by
  refine ⟨?_, by decide, by decide⟩
  intro raw currency hc hd
  have hn : sepNormalize (despaced raw) = lastSepSpecNorm (despaced raw) := by
    unfold sepNormalize lastSepSpecNorm
    rw [hc, hd]
    simp
  unfold parse_amount
  rw [hn]

/-- Closed corollary of C1 at a concrete input, discharging its
hypotheses there. -/
theorem c1_last_separator_decides_witness :
    (despaced "9.876,5").data.contains ',' = true ∧
    (despaced "9.876,5").data.contains '.' = true ∧
    parse_amount "9.876,5" none =
      amountEval (despaced "9.876,5") (lastSepSpecNorm (despaced "9.876,5")) none :=
  ⟨by decide, by decide,
    c1_last_separator_decides.1 "9.876,5" none (by decide) (by decide)⟩

/-- Spec-side normalization for claim C2 exactly as stated: with only
dots present, strip them exactly when the text after the last dot has
exactly 3 digits. -/
def dotOnlyDigitsSpecNorm (r : String) : String :=
  if ((splitChar '.' r.data).getLast?.getD []).countP isDig = 3 then
    String.mk (removeChar '.' r.data)
  else r

/-- C2, counterexample.  At `"1.0e5"` (dots, no comma, in the claim's
scope), the text after the last dot is `"0e5"`, which has 2 digits, so
the claim prescribes keeping the dot (value 1.0e5 = 100000); the code
checks for 3 *characters*, strips the dot, and yields 10e5 = 1000000. -/
theorem c2_counterexample :
    (despaced "1.0e5").data.contains '.' = true ∧
    (despaced "1.0e5").data.contains ',' = false ∧
    parse_amount "1.0e5" none = (some (.finite 1000000), none) ∧
    amountEval (despaced "1.0e5") (dotOnlyDigitsSpecNorm (despaced "1.0e5")) none =
      (some (.finite 100000), none) ∧
    ¬ parse_amount "1.0e5" none =
        amountEval (despaced "1.0e5") (dotOnlyDigitsSpecNorm (despaced "1.0e5")) none := by
  refine ⟨by decide, by decide, by decide, by decide, by decide⟩

/-- Spec-side normalization for the amended claim C2: strip the dots
exactly when the text after the last dot has exactly 3 characters. -/
def dotOnlyCharsSpecNorm (r : String) : String :=
  if ((splitChar '.' r.data).getLast?.getD []).length = 3 then
    String.mk (removeChar '.' r.data)
  else r

theorem splitCharAux_length_pos (sep : Char) (l acc : List Char) :
    0 < (splitCharAux sep l acc).length := by
  induction l generalizing acc with
  | nil => simp [splitCharAux]
  | cons c rest ih =>
    unfold splitCharAux
    split <;> simp [ih]

theorem splitCharAux_length_of_contains (sep : Char) (l acc : List Char)
    (h : l.contains sep = true) : 1 < (splitCharAux sep l acc).length := by
  induction l generalizing acc with
  | nil => simp at h
  | cons c rest ih =>
    unfold splitCharAux
    by_cases hc : c == sep
    · simp only [hc, if_true, List.length_cons]
      have := splitCharAux_length_pos sep rest []
      omega
    · simp only [hc, if_false]
      apply ih
      simp only [List.contains_cons, Bool.or_eq_true] at h
      rcases h with h | h
      · rw [beq_iff_eq] at h
        exact absurd (by simp [h]) hc
      · exact h

/-- C2, amended.  With only dots present, `parse_amount` strips them
exactly when the text after the last dot has exactly 3 *characters*
(the code compares the length of the final dot-separated part, which
for the digit-only strings of the extraction pipeline coincides with
the claim's 3-digit rule); in particular
`parse_amount "27.560" null = (27560, null)`. -/
theorem c2_dot_thousands_amended :
    (∀ raw currency, (despaced raw).data.contains '.' = true →
        (despaced raw).data.contains ',' = false →
        parse_amount raw currency =
          amountEval (despaced raw) (dotOnlyCharsSpecNorm (despaced raw)) currency) ∧
    parse_amount "27.560" none = (some (.finite 27560), none) := by
  refine ⟨?_, by decide⟩
  intro raw currency hd hc
  have hparts : 1 < (splitChar '.' (despaced raw).data).length :=
    splitCharAux_length_of_contains '.' (despaced raw).data [] hd
  have hd2 : '.' ∈ (despaced raw).data := by simpa using hd
  have hc2 : ¬ ',' ∈ (despaced raw).data := by simpa using hc
  have hn : sepNormalize (despaced raw) = dotOnlyCharsSpecNorm (despaced raw) := by
    by_cases h3 : ((splitChar '.' (despaced raw).data).getLast?.getD []).length = 3
    · simp [sepNormalize, dotOnlyCharsSpecNorm, hd2, hc2, h3, hparts]
    · simp [sepNormalize, dotOnlyCharsSpecNorm, hd2, hc2, h3]
  unfold parse_amount
  rw [hn]

/-- Closed corollary of the amended C2 at a concrete input. -/
theorem c2_dot_thousands_amended_witness :
    (despaced "27.560").data.contains '.' = true ∧
    (despaced "27.560").data.contains ',' = false ∧
    parse_amount "27.560" none =
      amountEval (despaced "27.560") (dotOnlyCharsSpecNorm (despaced "27.560")) none :=
  ⟨by decide, by decide,
    c2_dot_thousands_amended.1 "27.560" none (by decide) (by decide)⟩

/-- C3, counterexample.  The claim's particular
`parse_amount "1.00" "EUR" = (null, null)` is false: removing the
separators from `"1.00"` leaves `"100"`, exactly 3 characters, so the
`< 3` guard passes and the string parses as 1.0. -/
theorem c3_counterexample :
    parse_amount "1.00" (some "EUR") = (some (.finite 1), some "EUR") ∧
    ¬ parse_amount "1.00" (some "EUR") = (none, none) := by
  exact ⟨by decide, by decide⟩

/-- C3, amended.  `parse_amount` returns `(null, null)` exactly when
fewer than 3 characters remain after removing spaces, dots and commas,
or the separator-normalized string fails to parse as a float; in all
other cases the amount is non-null.  In particular
`parse_amount "1.00" "EUR" = (1.0, "EUR")` (exactly 3 characters
remain, so the guard passes), not `(null, null)` as the claim's
particular asserts. -/
theorem c3_null_iff_guard_or_unparsable :
    (∀ raw currency,
        parse_amount raw currency = (none, none) ↔
          (sepDigitsLen (despaced raw) < 3 ∨
            pyFloatOfStr (sepNormalize (despaced raw)) = none)) ∧
    parse_amount "1.00" (some "EUR") = (some (.finite 1), some "EUR") := by
  refine ⟨?_, by decide⟩
  intro raw currency
  unfold parse_amount amountEval
  by_cases h : sepDigitsLen (despaced raw) < 3
  · simp [h]
  · cases hf : pyFloatOfStr (sepNormalize (despaced raw)) with
    | none => simp [h, hf]
    | some v => simp [h, hf]

/-- C4.  `looks_like_offer` accepts exactly when at least 2 of the 3
signals hold: firm non-empty with length > 2, subject non-empty with
length > 2, amount non-null.  Hence one signal alone is rejected and
any two suffice. -/
theorem c4_two_of_three_signals (firm subject : String)
    (amount : Option PyFloatVal) :
    looks_like_offer firm subject amount = true ↔
      ((firm ≠ "" ∧ 2 < firm.length) ∧ (subject ≠ "" ∧ 2 < subject.length)) ∨
      ((firm ≠ "" ∧ 2 < firm.length) ∧ amount.isSome = true) ∨
      ((subject ≠ "" ∧ 2 < subject.length) ∧ amount.isSome = true) := by
  unfold looks_like_offer
  by_cases h1 : firm ≠ "" ∧ 2 < firm.length <;>
    by_cases h2 : subject ≠ "" ∧ 2 < subject.length <;>
      by_cases h3 : amount.isSome = true <;>
        simp [h1, h2, h3]

/-! ## Matcher lemmas: a successful amount-pattern search always binds
a non-empty currency group 2 (used for C6) -/

theorem gStar_some {α : Type} (p : Char → Bool) (k : List Char → Option α)
    (cs : List Char) (r : α) (h : gStar p k cs = some r) :
    ∃ cs2, k cs2 = some r := by
  induction cs with
  | nil => exact ⟨[], h⟩
  | cons c rest ih =>
    simp only [gStar] at h
    by_cases hp : p c = true
    · rw [if_pos hp] at h
      cases hg : gStar p k rest with
      | some r2 =>
        rw [hg] at h
        cases h
        exact ih hg
      | none =>
        rw [hg] at h
        exact ⟨c :: rest, h⟩
    · rw [if_neg hp] at h
      exact ⟨c :: rest, h⟩

theorem lRep_some {α : Type} (p : Char → Bool) (k : List Char → Option α) :
    ∀ (cs : List Char) (n : Nat) (r : α), lRep p k n cs = some r →
      ∃ cs2, k cs2 = some r := by
  intro cs
  induction cs with
  | nil =>
    intro n r h
    cases n with
    | zero => exact ⟨[], h⟩
    | succ n =>
      simp only [lRep] at h
      exact Option.noConfusion h
  | cons c rest ih =>
    intro n r h
    cases n with
    | zero =>
      simp only [lRep] at h
      cases hk : k (c :: rest) with
      | some r2 => rw [hk] at h; cases h; exact ⟨c :: rest, hk⟩
      | none =>
        rw [hk] at h
        by_cases hp : p c = true
        · rw [if_pos hp] at h
          exact ih 0 r h
        · rw [if_neg hp] at h; cases h
    | succ n =>
      simp only [lRep] at h
      by_cases hp : p c = true
      · rw [if_pos hp] at h
        exact ih n r h
      · rw [if_neg hp] at h; cases h

theorem mat_some {α : Type} : ∀ (R : RE) (cs : List Char) (caps : Caps)
    (k : List Char → Caps → Option α) (r : α),
    mat R cs caps k = some r → ∃ cs2 caps2, k cs2 caps2 = some r := by
  intro R
  induction R with
  | fail =>
    intro cs caps k r h
    simp [mat] at h
  | eps =>
    intro cs caps k r h
    exact ⟨cs, caps, h⟩
  | cls p =>
    intro cs caps k r h
    cases cs with
    | nil => simp [mat] at h
    | cons c rest =>
      simp only [mat] at h
      by_cases hp : p c = true
      · rw [if_pos hp] at h
        exact ⟨rest, caps, h⟩
      · rw [if_neg hp] at h; cases h
  | seq a b iha ihb =>
    intro cs caps k r h
    simp only [mat] at h
    obtain ⟨cs2, caps2, h2⟩ := iha _ _ _ _ h
    exact ihb _ _ _ _ h2
  | alt a b iha ihb =>
    intro cs caps k r h
    simp only [mat] at h
    cases hm : mat a cs caps k with
    | some r2 =>
      rw [hm] at h
      cases h
      exact iha _ _ _ _ hm
    | none =>
      rw [hm] at h
      exact ihb _ _ _ _ h
  | opt a iha =>
    intro cs caps k r h
    simp only [mat] at h
    cases hm : mat a cs caps k with
    | some r2 =>
      rw [hm] at h
      cases h
      exact iha _ _ _ _ hm
    | none =>
      rw [hm] at h
      exact ⟨cs, caps, h⟩
  | starC p =>
    intro cs caps k r h
    simp only [mat] at h
    obtain ⟨cs2, hk⟩ := gStar_some p _ cs r h
    exact ⟨cs2, caps, hk⟩
  | plusC p =>
    intro cs caps k r h
    cases cs with
    | nil => simp [mat] at h
    | cons c rest =>
      simp only [mat] at h
      by_cases hp : p c = true
      · rw [if_pos hp] at h
        obtain ⟨cs2, hk⟩ := gStar_some p _ rest r h
        exact ⟨cs2, caps, hk⟩
      · rw [if_neg hp] at h; cases h
  | lazyRepC p n =>
    intro cs caps k r h
    simp only [mat] at h
    obtain ⟨cs2, hk⟩ := lRep_some p _ cs n r h
    exact ⟨cs2, caps, hk⟩
  | group n a iha =>
    intro cs caps k r h
    simp only [mat] at h
    obtain ⟨cs2, caps2, h2⟩ := iha _ _ _ _ h
    exact ⟨cs2, _, h2⟩

theorem mat_litL {α : Type} : ∀ (l cs : List Char) (caps : Caps)
    (k : List Char → Caps → Option α) (r : α),
    mat (litL l) cs caps k = some r →
    l.length ≤ cs.length ∧ k (cs.drop l.length) caps = some r := by
  intro l
  induction l with
  | nil =>
    intro cs caps k r h
    simp only [litL, mat] at h
    exact ⟨Nat.zero_le _, h⟩
  | cons c l2 ih =>
    intro cs caps k r h
    cases cs with
    | nil =>
      simp only [litL, mat] at h
      exact Option.noConfusion h
    | cons d rest =>
      simp only [litL, mat] at h
      by_cases hp : (foldCase d == foldCase c) = true
      · rw [if_pos hp] at h
        obtain ⟨hle, hk⟩ := ih rest caps k r h
        constructor
        · simp only [List.length_cons]; omega
        · simpa using hk
      · rw [if_neg hp] at h; cases h

theorem mat_altsL {α : Type} : ∀ (L : List String)
    (hne : ∀ s ∈ L, s.data.length ≠ 0) (cs : List Char) (caps : Caps)
    (k : List Char → Caps → Option α) (r : α),
    mat (altsL L) cs caps k = some r →
    ∃ cs2, cs2.length < cs.length ∧ k cs2 caps = some r := by
  intro L
  induction L with
  | nil =>
    intro _ cs caps k r h
    simp [altsL, mat] at h
  | cons s L2 ih =>
    intro hne cs caps k r h
    simp only [altsL, mat] at h
    cases hm : mat (lit s) cs caps k with
    | some r2 =>
      rw [hm] at h
      cases h
      obtain ⟨hle, hk⟩ := mat_litL s.data cs caps k r hm
      refine ⟨cs.drop s.data.length, ?_, hk⟩
      have hs : s.data.length ≠ 0 := hne s (List.mem_cons_self s L2)
      simp only [List.length_drop]
      omega
    | none =>
      rw [hm] at h
      exact ih (fun t ht => hne t (List.mem_cons_of_mem s ht)) cs caps k r h

/-- After any successful match of `R`, the continuation was invoked
with a capture list headed by a non-empty group 2. -/
def CapTail (R : RE) : Prop :=
  ∀ (α : Type) (cs : List Char) (caps : Caps)
    (k : List Char → Caps → Option α) (r : α),
    mat R cs caps k = some r →
    ∃ s cs2 caps2, s ≠ [] ∧ k cs2 ((2, s) :: caps2) = some r

theorem rcat_cons (a : RE) (l : List RE) : rcat (a :: l) = .seq a (rcat l) := rfl

theorem capTail_seq (A R : RE) (hR : CapTail R) : CapTail (.seq A R) := by
  intro α cs caps k r h
  simp only [mat] at h
  obtain ⟨cs2, caps2, h2⟩ := mat_some A cs caps _ r h
  exact hR α cs2 caps2 k r h2

theorem capTail_group2 (L : List String) (hne : ∀ s ∈ L, s.data.length ≠ 0) :
    CapTail (rcat [.group 2 (altsL L)]) := by
  intro α cs caps k r h
  simp only [rcat, List.foldr, mat] at h
  obtain ⟨cs2, hlt, hk⟩ := mat_altsL L hne cs caps _ r h
  refine ⟨cs.take (cs.length - cs2.length), cs2, caps, ?_, hk⟩
  intro hemp
  rw [List.take_eq_nil_iff] at hemp
  rcases hemp with hz | hz
  · omega
  · subst hz
    simp at hlt

theorem capTail_mkAmountPat (pre : List RE) (L : List String)
    (hne : ∀ s ∈ L, s.data.length ≠ 0) :
    CapTail (mkAmountPat pre (altsL L)) := by
  induction pre with
  | nil => exact capTail_group2 L hne
  | cons a pre2 ih =>
    have : mkAmountPat (a :: pre2) (altsL L) = .seq a (mkAmountPat pre2 (altsL L)) := rfl
    rw [this]
    exact capTail_seq a _ ih

theorem searchAux_capTail (P : RE) (hP : CapTail P) :
    ∀ (cs : List Char) (pos : Nat) (m : REMatch),
      searchAux P cs pos = some m →
      ∃ s caps2, s ≠ [] ∧ m.2.2 = (2, s) :: caps2 := by
  intro cs
  induction cs with
  | nil =>
    intro pos m h
    simp only [searchAux] at h
    cases hm : mat P [] []
        (fun rest caps => some (pos, pos + (List.length [] - rest.length), caps)) with
    | some m0 =>
      rw [hm] at h
      injection h with h2
      obtain ⟨s, cs2, caps2, hs, hk⟩ := hP _ _ _ _ _ hm
      injection hk with hk2
      subst h2
      subst hk2
      exact ⟨s, caps2, hs, rfl⟩
    | none => rw [hm] at h; cases h
  | cons c rest ih =>
    intro pos m h
    simp only [searchAux] at h
    cases hm : mat P (c :: rest) []
        (fun rest2 caps =>
          some (pos, pos + (List.length (c :: rest) - rest2.length), caps)) with
    | some m0 =>
      rw [hm] at h
      injection h with h2
      obtain ⟨s, cs2, caps2, hs, hk⟩ := hP _ _ _ _ _ hm
      injection hk with hk2
      subst h2
      subst hk2
      exact ⟨s, caps2, hs, rfl⟩
    | none =>
      rw [hm] at h
      exact ih (pos + 1) m h

theorem parse_amount_snd (raw : String) (cur : Option String)
    (a : PyFloatVal) (c : Option String)
    (h : parse_amount raw cur = (some a, c)) : c = normalize_currency cur := by
  unfold parse_amount amountEval at h
  by_cases hg : sepDigitsLen (despaced raw) < 3
  · rw [if_pos hg] at h; cases h
  · rw [if_neg hg] at h
    cases hf : pyFloatOfStr (sepNormalize (despaced raw)) with
    | none => rw [hf] at h; cases h
    | some v =>
      rw [hf] at h
      cases h
      rfl

theorem normalize_currency_of_ne_empty (s : String) (hs : s ≠ "") :
    ∃ u, normalize_currency (some s) = some u := by
  simp only [normalize_currency, beq_iff_eq, if_neg hs]
  split
  · exact ⟨_, rfl⟩
  · split
    · exact ⟨_, rfl⟩
    · split
      · exact ⟨_, rfl⟩
      · exact ⟨_, rfl⟩

theorem tryPatPage_shape (pat : RE) (hP : CapTail pat) (page : String)
    (res : Option PyFloatVal × Option String)
    (h : tryPatPage pat page = some res) :
    ∃ a c, res = (some a, some c) := by
  unfold tryPatPage at h
  cases hm : pySearch pat page with
  | none => rw [hm] at h; cases h
  | some m =>
    rw [hm] at h
    obtain ⟨s, caps2, hs, hcaps⟩ := searchAux_capTail pat hP page.data 0 m hm
    have hlast : 2 ≤ lastIdxCaps m.2.2 := by
      rw [hcaps]
      simp [lastIdxCaps]
    have hcap : capLookup m.2.2 2 = some s := by
      rw [hcaps]
      simp [capLookup]
    simp only [] at h
    rw [if_pos hlast, hcap, Option.map_some'] at h
    cases hpa : parse_amount (pyStrip (capStr m 1)) (some (String.mk s)) with
    | mk a1 c1 =>
      rw [hpa] at h
      cases a1 with
      | none => exact Option.noConfusion h
      | some av =>
        simp only [] at h
        injection h with h2
        have hc1 : c1 = normalize_currency (some (String.mk s)) :=
          parse_amount_snd _ _ _ _ hpa
        have hsne : String.mk s ≠ "" := by
          intro he
          exact hs (by simpa using congrArg String.data he)
        obtain ⟨u, hu⟩ := normalize_currency_of_ne_empty (String.mk s) hsne
        refine ⟨av, u, ?_⟩
        rw [← h2, hc1, hu]

theorem amountPageLoop_some (pat : RE) :
    ∀ (pages : List String) (r : Option PyFloatVal × Option String),
      amountPageLoop pat pages = some r →
      ∃ page, tryPatPage pat page = some r := by
  intro pages
  induction pages with
  | nil => intro r h; cases h
  | cons pg rest ih =>
    intro r h
    simp only [amountPageLoop] at h
    cases ht : tryPatPage pat pg with
    | some r2 =>
      rw [ht] at h
      cases h
      exact ⟨pg, ht⟩
    | none =>
      rw [ht] at h
      exact ih r h

theorem amountPatLoop_shape :
    ∀ (pats : List RE) (hgood : ∀ p ∈ pats, CapTail p) (pages : List String),
      amountPatLoop pats pages = (none, none) ∨
      ∃ a c, amountPatLoop pats pages = (some a, some c) := by
  intro pats
  induction pats with
  | nil => intro _ _; left; rfl
  | cons pat pats2 ih =>
    intro hgood pages
    simp only [amountPatLoop]
    cases hl : amountPageLoop pat pages with
    | some r =>
      obtain ⟨page, hpage⟩ := amountPageLoop_some pat pages r hl
      obtain ⟨a, c, hr⟩ :=
        tryPatPage_shape pat (hgood pat (List.mem_cons_self pat pats2)) page r hpage
      right
      exact ⟨a, c, hr⟩
    | none =>
      exact ih (fun p hp => hgood p (List.mem_cons_of_mem pat hp)) pages

theorem capTail_amountPats : ∀ p ∈ AMOUNT_PATTERNS, CapTail p := by
  intro p hp
  simp only [AMOUNT_PATTERNS, List.mem_cons, List.mem_singleton] at hp
  rcases hp with h | h | h
  · subst h
    exact capTail_mkAmountPat _ _ (by decide)
  · subst h
    exact capTail_mkAmountPat _ _ (by decide)
  · rcases h with h | h
    · subst h
      exact capTail_mkAmountPat _ _ (by decide)
    · cases h

/-- C6.  `extract_amount_from_pages` yields either `(null, null)` or a
pair with both amount and currency non-null; consequently in every
record produced by `parse_offer`, amount and currency are set together
or both null. -/
theorem c6_amount_currency_together :
    (∀ pages, extract_amount_from_pages pages = (none, none) ∨
      ∃ a c, extract_amount_from_pages pages = (some a, some c)) ∧
    (∀ path pages rec, parse_offer path pages = some rec →
      (rec.amount = none ∧ rec.currency = none) ∨
      ∃ a c, rec.amount = some a ∧ rec.currency = some c) := by
  constructor
  · intro pages
    exact amountPatLoop_shape AMOUNT_PATTERNS capTail_amountPats pages
  · intro path pages rec h
    unfold parse_offer at h
    by_cases hl : looks_like_offer (extract_firm pages) (extract_subject pages)
        (extract_amount_from_pages pages).1 = true
    · rw [if_pos hl] at h
      cases h
      rcases amountPatLoop_shape AMOUNT_PATTERNS capTail_amountPats pages with hz | hz
      · left
        constructor
        · show (extract_amount_from_pages pages).1 = none
          rw [show extract_amount_from_pages pages = amountPatLoop AMOUNT_PATTERNS pages from rfl] at *
          rw [hz]
        · show (extract_amount_from_pages pages).2 = none
          rw [show extract_amount_from_pages pages = amountPatLoop AMOUNT_PATTERNS pages from rfl] at *
          rw [hz]
      · obtain ⟨a, c, hac⟩ := hz
        right
        refine ⟨a, c, ?_, ?_⟩
        · show (extract_amount_from_pages pages).1 = some a
          rw [show extract_amount_from_pages pages = amountPatLoop AMOUNT_PATTERNS pages from rfl]
          rw [hac]
        · show (extract_amount_from_pages pages).2 = some c
          rw [show extract_amount_from_pages pages = amountPatLoop AMOUNT_PATTERNS pages from rfl]
          rw [hac]
    · rw [if_neg hl] at h
      cases h

/-- Closed corollary of C6 at a concrete parsed document, discharging
the `parse_offer _ _ = some _` hypothesis there. -/
theorem c6_amount_currency_together_witness :
    (OfferRecord.amount
        ⟨"b.pdf", "Beta GmbH", "Pompa Teklifi", some (.finite 12500), some "TL"⟩ = none ∧
      OfferRecord.currency
        ⟨"b.pdf", "Beta GmbH", "Pompa Teklifi", some (.finite 12500), some "TL"⟩ = none) ∨
    ∃ a c,
      OfferRecord.amount
          ⟨"b.pdf", "Beta GmbH", "Pompa Teklifi", some (.finite 12500), some "TL"⟩ = some a ∧
        OfferRecord.currency
          ⟨"b.pdf", "Beta GmbH", "Pompa Teklifi", some (.finite 12500), some "TL"⟩ = some c :=
  c6_amount_currency_together.2 "b.pdf"
    ["Firma: Beta GmbH\nKonu: Pompa Teklifi\nToplam: 12.500 TL"]
    ⟨"b.pdf", "Beta GmbH", "Pompa Teklifi", some (.finite 12500), some "TL"⟩
    (by decide)

/-! ## C10: pattern-major search order -/

/-- All (pattern, page) pairs in pattern-major order: every page under
the first pattern before any page under the second. -/
def patPagePairs (pats : List RE) (pages : List String) : List (RE × String) :=
  pats.bind (fun p => pages.map (fun pg => (p, pg)))

/-- First pair (in list order) whose single leftmost regex match
yields a normalizable amount. -/
def firstPairAmount : List (RE × String) → Option PyFloatVal × Option String
  | [] => (none, none)
  | pr :: rest =>
    match tryPatPage pr.1 pr.2 with
    | some r => r
    | none => firstPairAmount rest

theorem firstPairAmount_append_page (pat : RE) :
    ∀ (pages : List String) (rest : List (RE × String)),
      firstPairAmount (pages.map (fun pg => (pat, pg)) ++ rest) =
        (match amountPageLoop pat pages with
         | some r => r
         | none => firstPairAmount rest) := by
  intro pages
  induction pages with
  | nil => intro rest; rfl
  | cons pg pages2 ih =>
    intro rest
    simp only [List.map_cons, List.cons_append, firstPairAmount, amountPageLoop]
    cases tryPatPage pat pg with
    | some r => rfl
    | none => exact ih rest

theorem amountPatLoop_eq_pairs :
    ∀ (pats : List RE) (pages : List String),
      amountPatLoop pats pages = firstPairAmount (patPagePairs pats pages) := by
  intro pats
  induction pats with
  | nil => intro pages; rfl
  | cons pat pats2 ih =>
    intro pages
    have hp : patPagePairs (pat :: pats2) pages =
        pages.map (fun pg => (pat, pg)) ++ patPagePairs pats2 pages := by
      simp [patPagePairs]
    rw [hp, firstPairAmount_append_page]
    simp only [amountPatLoop]
    cases amountPageLoop pat pages with
    | some r => rfl
    | none => exact ih pages

/-- C10.  `extract_amount_from_pages` is pattern-major: it equals the
first hit over the (pattern, page) pairs listed with every page under
the Turkish pattern before any page under the English one, and the
bare pattern last; per pair only the single leftmost match is tried
(`tryPatPage` uses `pySearch`).  The concrete part shows a
label-anchored match on page 2 beating a bare match on page 1. -/
theorem c10_pattern_major_order :
    (∀ pages, extract_amount_from_pages pages =
      firstPairAmount (patPagePairs AMOUNT_PATTERNS pages)) ∧
    extract_amount_from_pages ["500.000 €", "Toplam: 123.456 EUR"] =
      (some (.finite 123456), some "EUR") ∧
    tryPatPage amountPat2 "500.000 €" =
      some (some (.finite 500000), some "EUR") := by
  refine ⟨fun pages => amountPatLoop_eq_pairs AMOUNT_PATTERNS pages, by decide, by decide⟩

/-! ## C9: totality of sanitize_text -/

theorem encChar_isSome (c : Nat) (h : c < 1114112) : (encChar c).isSome = true := by
  unfold encChar
  split_ifs <;> first | rfl | omega

theorem encAll_isSome : ∀ (s : PyStr), pyValidStr s → ∃ bs, encAll s = some bs := by
  intro s
  induction s with
  | nil => intro _; exact ⟨[], rfl⟩
  | cons c rest ih =>
    intro hv
    obtain ⟨bs2, h2⟩ := ih (fun d hd => hv d (List.mem_cons_of_mem c hd))
    have h1 : (encChar c).isSome = true :=
      encChar_isSome c (hv c (List.mem_cons_self c rest))
    obtain ⟨bs, hb⟩ := Option.isSome_iff_exists.mp h1
    refine ⟨bs ++ bs2, ?_⟩
    simp only [encAll, hb, h2]

/-- C9.  `sanitize_text` is total on every Python string (all code
points below 0x110000, lone surrogates included): surrogatepass
encodes them, and decoding with replace substitutes U+FFFD; it never
raises.  The lone surrogate U+D800 becomes three replacement
characters, as CPython produces. -/
theorem c9_sanitize_total :
    (∀ s : PyStr, pyValidStr s → ∃ t, sanitize_text s = some t) ∧
    sanitize_text [55296] = some [65533, 65533, 65533] := by
  constructor
  · intro s hv
    obtain ⟨bs, h⟩ := encAll_isSome s hv
    exact ⟨decRep bs, by simp [sanitize_text, h]⟩
  · decide

/-- Closed corollary of C9 at the lone surrogate U+D800, discharging
the validity hypothesis there. -/
theorem c9_sanitize_total_witness : ∃ t, sanitize_text [55296] = some t :=
  c9_sanitize_total.1 [55296] (by intro c hc; simp at hc; omega)

/-! ## C5: the end-to-end example -/

/-- C5, evaluation at the claimed input.  The pipeline accepts the
document, and subject, amount and currency come out as the claim says,
but the firm is "Acme Ltd.." — `normalize_firm_name` substitutes
"Ltd." for the bare "ltd" inside the already-dotted "Ltd.", appending
a second dot, contrary to its own docstring ("preserves common
business abbreviations like A.Ş, Ltd., Inc.") and to the claimed
firm "Acme Ltd.".  `mkRat 123456 100` is 1234.56. -/
theorem c5_end_to_end_eval :
    parse_offer "doc.pdf"
        ["Firma Adı: Acme Ltd.\nKonu: Soya Yağı Teklifi\nToplam Tutar: 1.234,56 EUR"] =
      some ⟨"doc.pdf", "Acme Ltd..", "Soya Yağı Teklifi",
        some (.finite (mkRat 123456 100)), some "EUR"⟩ ∧
    normalize_firm_name "Acme Ltd." = "Acme Ltd.." ∧
    ¬ extract_firm
        ["Firma Adı: Acme Ltd.\nKonu: Soya Yağı Teklifi\nToplam Tutar: 1.234,56 EUR"] =
      "Acme Ltd." := by
  refine ⟨by decide, by decide, by decide⟩

/-! ## String-shape lemmas for the extractor claims (C7, C8) -/

def noWsHead (l : List Char) : Bool :=
  match l.head? with
  | some c => !(isPySpace c)
  | none => true

def noWsLast (l : List Char) : Bool :=
  match l.getLast? with
  | some c => !(isPySpace c)
  | none => true

theorem dropWhile_head_false (p : Char → Bool) :
    ∀ (l : List Char) (c : Char) (rest : List Char),
      l.dropWhile p = c :: rest → p c = false := by
  intro l
  induction l with
  | nil => intro c rest h; cases h
  | cons d t ih =>
    intro c rest h
    rw [List.dropWhile_cons] at h
    by_cases hp : p d = true
    · rw [if_pos hp] at h
      exact ih c rest h
    · rw [if_neg hp] at h
      cases h
      exact Bool.not_eq_true _ |>.mp hp

theorem dropWhile_getLast? (p : Char → Bool) :
    ∀ (l : List Char), l.dropWhile p ≠ [] →
      (l.dropWhile p).getLast? = l.getLast? := by
  intro l
  induction l with
  | nil => intro h; simp at h
  | cons d t ih =>
    intro h
    rw [List.dropWhile_cons]
    rw [List.dropWhile_cons] at h
    by_cases hp : p d = true
    · rw [if_pos hp] at h
      rw [if_pos hp]
      have ht : t ≠ [] := by
        intro hte
        apply h
        rw [hte]
        simp
      rw [ih h]
      cases t with
      | nil => exact absurd rfl ht
      | cons x xs => rw [List.getLast?_cons_cons]
    · rw [if_neg hp]

theorem noWsHead_of_dropWs (l : List Char) : noWsHead (dropWs l) = true := by
  unfold noWsHead
  cases hd : dropWs l with
  | nil => rfl
  | cons c t =>
    have := dropWhile_head_false isPySpace l c t hd
    simp [this]

theorem pyStripL_noWsLast (l : List Char) : noWsLast (pyStripL l) = true := by
  unfold pyStripL noWsLast
  rw [List.getLast?_reverse]
  cases hd : dropWs (dropWs l).reverse with
  | nil => rfl
  | cons c t =>
    have := dropWhile_head_false isPySpace (dropWs l).reverse c t hd
    simp [this]

theorem pyStripL_noWsHead (l : List Char) : noWsHead (pyStripL l) = true := by
  unfold pyStripL noWsHead
  rw [List.head?_reverse]
  by_cases hr : dropWs (dropWs l).reverse = []
  · rw [hr]; rfl
  · have hgl : (dropWs (dropWs l).reverse).getLast? = ((dropWs l).reverse).getLast? :=
      dropWhile_getLast? isPySpace ((dropWs l).reverse) hr
    rw [hgl, List.getLast?_reverse]
    cases hd : dropWs l with
    | nil => rfl
    | cons c t =>
      have := dropWhile_head_false isPySpace l c t hd
      simp [this]

theorem pyStripL_eq_self (l : List Char) (hh : noWsHead l = true)
    (hl : noWsLast l = true) : pyStripL l = l := by
  unfold pyStripL
  have h1 : dropWs l = l := by
    cases l with
    | nil => rfl
    | cons c t =>
      unfold noWsHead at hh
      simp only [List.head?_cons] at hh
      unfold dropWs
      rw [List.dropWhile_cons, if_neg (by simp at hh ⊢; exact hh)]
  rw [h1]
  have h2 : dropWs l.reverse = l.reverse := by
    cases hrev : l.reverse with
    | nil => rfl
    | cons c t =>
      have hc : l.getLast? = some c := by
        rw [← List.head?_reverse, hrev]
        rfl
      unfold noWsLast at hl
      rw [hc] at hl
      unfold dropWs
      rw [List.dropWhile_cons, if_neg (by simp at hl ⊢; exact hl)]
  rw [h2, List.reverse_reverse]

theorem pyStripL_idem (l : List Char) : pyStripL (pyStripL l) = pyStripL l :=
  pyStripL_eq_self _ (pyStripL_noWsHead l) (pyStripL_noWsLast l)

theorem pyStrip_idem (s : String) : pyStrip (pyStrip s) = pyStrip s := by
  unfold pyStrip
  rw [pyStripL_idem]

theorem tableMap_self_or_mem (t : List (Char × Char)) (c : Char) :
    tableMap t c = c ∨ tableMap t c ∈ t.map Prod.snd := by
  unfold tableMap
  cases hf : t.find? (fun p => p.1 == c) with
  | none => exact Or.inl rfl
  | some p =>
    right
    exact List.mem_map_of_mem Prod.snd (List.mem_of_find?_eq_some hf)

theorem toLowerPy_not_ws (c : Char) (h : isPySpace c = false) :
    isPySpace (toLowerPy c) = false := by
  rcases tableMap_self_or_mem lowerTable c with he | hm
  · rw [toLowerPy, he]; exact h
  · revert hm
    have : ∀ d ∈ lowerTable.map Prod.snd, isPySpace d = false := by decide
    intro hm
    exact this _ hm

theorem toUpperPy_not_ws (c : Char) (h : isPySpace c = false) :
    isPySpace (toUpperPy c) = false := by
  rcases tableMap_self_or_mem upperTable c with he | hm
  · rw [toUpperPy, he]; exact h
  · revert hm
    have : ∀ d ∈ upperTable.map Prod.snd, isPySpace d = false := by decide
    intro hm
    exact this _ hm

/-- The character transformation `str.title` applies at one position. -/
def titleChar (b : Bool) (c : Char) : Char :=
  if isAlphaPy c then (if b then toLowerPy c else toUpperPy c) else c

theorem titleChar_not_ws (b : Bool) (c : Char) (h : isPySpace c = false) :
    isPySpace (titleChar b c) = false := by
  unfold titleChar
  split_ifs with h1 h2
  · exact toLowerPy_not_ws c h
  · exact toUpperPy_not_ws c h
  · exact h

theorem pyTitleAux_eq_map : ∀ (b : Bool) (l : List Char),
    pyTitleAux b l = (match l with
      | [] => []
      | c :: rest => titleChar b c :: pyTitleAux (isAlphaPy c) rest) := by
  intro b l
  cases l with
  | nil => rfl
  | cons c rest => rfl

theorem pyTitleAux_length : ∀ (b : Bool) (l : List Char),
    (pyTitleAux b l).length = l.length := by
  intro b l
  induction l generalizing b with
  | nil => rfl
  | cons c rest ih => simp [pyTitleAux, ih]

theorem pyTitleAux_getLast? : ∀ (l : List Char) (b : Bool) (c : Char),
    l.getLast? = some c →
    ∃ b2, (pyTitleAux b l).getLast? = some (titleChar b2 c) := by
  intro l
  induction l with
  | nil => intro b c h; cases h
  | cons d rest ih =>
    intro b c h
    cases rest with
    | nil =>
      simp only [List.getLast?_singleton] at h
      cases h
      exact ⟨b, rfl⟩
    | cons e t =>
      rw [List.getLast?_cons_cons] at h
      obtain ⟨b2, hb2⟩ := ih (isAlphaPy d) c h
      refine ⟨b2, ?_⟩
      have hne : pyTitleAux (isAlphaPy d) (e :: t) ≠ [] := by
        intro hz
        have := pyTitleAux_length (isAlphaPy d) (e :: t)
        rw [hz] at this
        simp at this
      show (pyTitleAux b (d :: e :: t)).getLast? = some (titleChar b2 c)
      rw [show pyTitleAux b (d :: e :: t) =
        titleChar b d :: pyTitleAux (isAlphaPy d) (e :: t) from rfl]
      cases hc : pyTitleAux (isAlphaPy d) (e :: t) with
      | nil => exact absurd hc hne
      | cons x xs =>
        rw [List.getLast?_cons_cons]
        rw [hc] at hb2
        exact hb2

theorem pyTitle_noWsHead (s : String) (h : noWsHead s.data = true) :
    noWsHead (pyTitle s).data = true := by
  unfold pyTitle
  cases hd : s.data with
  | nil => rfl
  | cons c t =>
    rw [hd] at h
    unfold noWsHead at h ⊢
    simp only [List.head?_cons] at h ⊢
    show (!isPySpace (titleChar false c)) = true
    simp only [Bool.not_eq_true'] at h ⊢
    exact titleChar_not_ws false c h

theorem pyTitle_noWsLast (s : String) (h : noWsLast s.data = true) :
    noWsLast (pyTitle s).data = true := by
  unfold pyTitle
  cases hl : s.data.getLast? with
  | none =>
    rw [List.getLast?_eq_none_iff] at hl
    rw [hl]
    rfl
  | some c =>
    unfold noWsLast at h
    rw [hl] at h
    obtain ⟨b2, hb2⟩ := pyTitleAux_getLast? s.data false c hl
    unfold noWsLast
    rw [show (String.mk (pyTitleAux false s.data)).data = pyTitleAux false s.data from rfl]
    rw [hb2]
    simp only [Bool.not_eq_eq_eq_not, Bool.not_true] at h
    have := titleChar_not_ws b2 c (by simpa using h)
    simp [this]

theorem pyTitle_length (s : String) : (pyTitle s).length = s.length := by
  unfold pyTitle String.length
  exact pyTitleAux_length false s.data

theorem subLitFuel_nil (pat rep : List Char) (fuel : Nat) :
    subLitFuel pat rep fuel [] = [] := by
  cases fuel <;> rfl

theorem subLitFuel_length_ge (pat rep : List Char) (hlen : pat.length ≤ rep.length) :
    ∀ (fuel : Nat) (l : List Char), l.length ≤ fuel →
      l.length ≤ (subLitFuel pat rep fuel l).length := by
  intro fuel
  induction fuel with
  | zero =>
    intro l hl
    cases l with
    | nil => simp [subLitFuel_nil]
    | cons c rest => simp at hl
  | succ fuel ih =>
    intro l hl
    cases l with
    | nil => simp [subLitFuel_nil]
    | cons c rest =>
      simp only [subLitFuel]
      by_cases hc : (decide (0 < pat.length) && ciStarts pat (c :: rest)) = true
      · rw [if_pos hc]
        simp only [Bool.and_eq_true, decide_eq_true_eq] at hc
        have h1 : ((c :: rest).drop pat.length).length ≤ fuel := by
          simp only [List.length_drop, List.length_cons]
          simp only [List.length_cons] at hl
          omega
        have h2 := ih _ h1
        simp only [List.length_append, List.length_drop, List.length_cons] at h2 ⊢
        omega
      · rw [if_neg hc]
        have h2 := ih rest (by simp only [List.length_cons] at hl; omega)
        simp only [List.length_cons]
        omega

theorem subLitFuel_head (pat rep : List Char) (hrep : rep ≠ [])
    (hrh : noWsHead rep = true) :
    ∀ (fuel : Nat) (l : List Char), l.length ≤ fuel → l ≠ [] →
      noWsHead l = true →
      subLitFuel pat rep fuel l ≠ [] ∧ noWsHead (subLitFuel pat rep fuel l) = true := by
  intro fuel
  induction fuel with
  | zero =>
    intro l hl hne _
    cases l with
    | nil => exact absurd rfl hne
    | cons c rest => simp at hl
  | succ fuel ih
     =>
    intro l hl hne hh
    cases l with
    | nil => exact absurd rfl hne
    | cons c rest =>
      simp only [subLitFuel]
      by_cases hc : (decide (0 < pat.length) && ciStarts pat (c :: rest)) = true
      · rw [if_pos hc]
        cases rep with
        | nil => exact absurd rfl hrep
        | cons r rs =>
          refine ⟨by simp, ?_⟩
          unfold noWsHead at hrh ⊢
          simpa using hrh
      · rw [if_neg hc]
        refine ⟨by simp, ?_⟩
        unfold noWsHead at hh ⊢
        simpa using hh

theorem getLast?_drop_of_ne_nil : ∀ (n : Nat) (l : List Char),
    l.drop n ≠ [] → (l.drop n).getLast? = l.getLast? := by
  intro n
  induction n with
  | zero => intro l _; rfl
  | succ n ih =>
    intro l h
    cases l with
    | nil => simp at h
    | cons x xs =>
      rw [List.drop_succ_cons] at h ⊢
      rw [ih xs h]
      cases xs with
      | nil => simp at h
      | cons y ys => rw [List.getLast?_cons_cons]

theorem noWsLast_congr (l1 l2 : List Char) (h : l1.getLast? = l2.getLast?) :
    noWsLast l1 = noWsLast l2 := by
  unfold noWsLast
  rw [h]

theorem subLitFuel_last (pat rep : List Char) (hrep : rep ≠ [])
    (hrl : noWsLast rep = true) :
    ∀ (fuel : Nat) (l : List Char), l.length ≤ fuel → l ≠ [] →
      noWsLast l = true →
      subLitFuel pat rep fuel l ≠ [] ∧ noWsLast (subLitFuel pat rep fuel l) = true := by
  intro fuel
  induction fuel with
  | zero =>
    intro l hl hne _
    cases l with
    | nil => exact absurd rfl hne
    | cons c rest => simp at hl
  | succ fuel ih =>
    intro l hl hne hll
    cases l with
    | nil => exact absurd rfl hne
    | cons c rest =>
      simp only [subLitFuel]
      by_cases hc : (decide (0 < pat.length) && ciStarts pat (c :: rest)) = true
      · rw [if_pos hc]
        by_cases hd : (c :: rest).drop pat.length = []
        · rw [hd, subLitFuel_nil, List.append_nil]
          exact ⟨hrep, hrl⟩
        · have hlast := getLast?_drop_of_ne_nil pat.length (c :: rest) hd
          have hdl : ((c :: rest).drop pat.length).length ≤ fuel := by
            simp only [Bool.and_eq_true, decide_eq_true_eq] at hc
            simp only [List.length_drop, List.length_cons]
            simp only [List.length_cons] at hl
            omega
          obtain ⟨hne2, hl2⟩ := ih _ hdl hd
            (by rw [noWsLast_congr _ _ hlast]; exact hll)
          refine ⟨by simp [hne2], ?_⟩
          rw [noWsLast_congr _ _ (List.getLast?_append_of_ne_nil rep hne2)]
          exact hl2
      · rw [if_neg hc]
        cases rest with
        | nil =>
          rw [subLitFuel_nil]
          exact ⟨by simp, hll⟩
        | cons e t =>
          have hll2 : noWsLast (e :: t) = true := by
            rw [noWsLast_congr (e :: t) (c :: e :: t) (List.getLast?_cons_cons).symm]
            exact hll
          obtain ⟨hne2, hl2⟩ := ih (e :: t)
            (by simp only [List.length_cons] at hl ⊢; omega) (by simp) hll2
          refine ⟨by simp, ?_⟩
          cases hsf : subLitFuel pat rep fuel (e :: t) with
          | nil => exact absurd hsf hne2
          | cons x xs =>
            rw [noWsLast_congr _ _ (List.getLast?_cons_cons)]
            rw [← hsf]
            exact hl2

/-- The facts needed of each substitution pair: non-empty pattern and
replacement, replacement with non-whitespace ends, and a replacement
at least as long as the pattern. -/
def GoodSub (pr : String × String) : Prop :=
  pr.1.data ≠ [] ∧ pr.2.data ≠ [] ∧ noWsHead pr.2.data = true ∧
  noWsLast pr.2.data = true ∧ pr.1.data.length ≤ pr.2.data.length

theorem abbrevSubs_good : ∀ pr ∈ ABBREV_SUBS, GoodSub pr := by
  intro pr hpr
  simp only [ABBREV_SUBS, List.mem_cons] at hpr
  rcases hpr with h | h | h | h | h | h | h | h | h | h <;>
    first
      | (subst h; refine ⟨by decide, by decide, by decide, by decide, by decide⟩)
      | cases h

theorem subLitL_ok (pat rep l : List Char) (hpat : pat ≠ []) (hrep : rep ≠ [])
    (hrh : noWsHead rep = true) (hrl : noWsLast rep = true)
    (hlen : pat.length ≤ rep.length) (hl : l ≠ []) (hh : noWsHead l = true)
    (hll : noWsLast l = true) :
    subLitL pat rep l ≠ [] ∧ noWsHead (subLitL pat rep l) = true ∧
      noWsLast (subLitL pat rep l) = true ∧ l.length ≤ (subLitL pat rep l).length := by
  unfold subLitL
  obtain ⟨h1, h2⟩ := subLitFuel_head pat rep hrep hrh l.length l (Nat.le_refl _) hl hh
  obtain ⟨_, h3⟩ := subLitFuel_last pat rep hrep hrl l.length l (Nat.le_refl _) hl hll
  exact ⟨h1, h2, h3, subLitFuel_length_ge pat rep hlen l.length l (Nat.le_refl _)⟩

theorem foldl_subs_ok :
    ∀ (subs : List (String × String)), (∀ pr ∈ subs, GoodSub pr) →
    ∀ (s : String), s.data ≠ [] → noWsHead s.data = true → noWsLast s.data = true →
      (subs.foldl (fun acc pr => String.mk (subLitL pr.1.data pr.2.data acc.data)) s).data ≠ [] ∧
      noWsHead (subs.foldl (fun acc pr => String.mk (subLitL pr.1.data pr.2.data acc.data)) s).data = true ∧
      noWsLast (subs.foldl (fun acc pr => String.mk (subLitL pr.1.data pr.2.data acc.data)) s).data = true ∧
      s.length ≤ (subs.foldl (fun acc pr => String.mk (subLitL pr.1.data pr.2.data acc.data)) s).length := by
  intro subs
  induction subs with
  | nil =>
    intro _ s h1 h2 h3
    exact ⟨h1, h2, h3, Nat.le_refl _⟩
  | cons pr subs2 ih =>
    intro hgood s h1 h2 h3
    obtain ⟨g1, g2, g3, g4, g5⟩ := hgood pr (List.mem_cons_self pr subs2)
    obtain ⟨k1, k2, k3, k4⟩ :=
      subLitL_ok pr.1.data pr.2.data s.data g1 g2 g3 g4 g5 h1 h2 h3
    rw [List.foldl_cons]
    obtain ⟨m1, m2, m3, m4⟩ := ih (fun q hq => hgood q (List.mem_cons_of_mem pr hq))
      (String.mk (subLitL pr.1.data pr.2.data s.data)) k1 k2 k3
    refine ⟨m1, m2, m3, ?_⟩
    have : s.length ≤ (String.mk (subLitL pr.1.data pr.2.data s.data)).length := k4
    omega

theorem string_mk_data (s : String) : String.mk s.data = s := by
  cases s
  rfl

theorem string_length_data (s : String) : s.length = s.data.length := rfl

/-- For a stripped firm string longer than 2 characters,
`normalize_firm_name` keeps the length at least as large: title casing
is per-character, every abbreviation substitution is non-shrinking,
and the final strip is a no-op because the ends stay non-whitespace. -/
theorem normalize_firm_name_big (f : String) (hstr : pyStrip f = f)
    (hlen : 2 < f.length) : 2 < (normalize_firm_name f).length := by
  unfold normalize_firm_name
  rw [if_neg (by
    intro hor
    rcases hor with h | h
    · rw [h] at hlen; simp [String.length] at hlen
    · omega)]
  have hfd : pyStripL f.data = f.data := congrArg String.data hstr
  have hfh : noWsHead f.data = true := by rw [← hfd]; exact pyStripL_noWsHead _
  have hfl : noWsLast f.data = true := by rw [← hfd]; exact pyStripL_noWsLast _
  have hfne : f.data ≠ [] := by
    intro hz
    rw [string_length_data, hz] at hlen
    simp at hlen
  have hth : noWsHead (pyTitle f).data = true := pyTitle_noWsHead f hfh
  have htl : noWsLast (pyTitle f).data = true := pyTitle_noWsLast f hfl
  have htne : (pyTitle f).data ≠ [] := by
    intro hz
    have h2 := pyTitle_length f
    rw [string_length_data, string_length_data, hz] at h2
    rw [string_length_data] at hlen
    simp only [List.length_nil] at h2
    omega
  obtain ⟨a1, a2, a3, a4⟩ := foldl_subs_ok ABBREV_SUBS abbrevSubs_good
    (pyTitle f) htne hth htl
  unfold applyAbbrevs
  unfold pyStrip
  rw [pyStripL_eq_self _ a2 a3, string_mk_data]
  have := pyTitle_length f
  unfold ABBREV_SUBS at a4
  unfold ABBREV_SUBS
  omega

theorem normalize_of_strip_big (x : String) (h : 2 < (pyStrip x).length) :
    2 < (normalize_firm_name (pyStrip x)).length :=
  normalize_firm_name_big (pyStrip x) (pyStrip_idem x) h

theorem firmSameLine_big (line r : String) (h : firmSameLine line = some r) :
    2 < r.length := by
  unfold firmSameLine at h
  cases hm : pySearch firmExtractRE line with
  | none => rw [hm] at h; cases h
  | some m =>
    rw [hm] at h
    simp only [] at h
    by_cases hg : pyStrip (splitFirst stopRE (pyStrip (capStr m 1))) ≠ "" ∧
        2 < (pyStrip (splitFirst stopRE (pyStrip (capStr m 1)))).length
    · rw [if_pos hg] at h
      injection h with h2
      subst h2
      exact normalize_of_strip_big _ hg.2
    · rw [if_neg hg] at h; cases h

theorem firmNextLine_big (lines : List String) (i : Nat) (r : String)
    (h : firmNextLine lines i = some r) : 2 < r.length := by
  unfold firmNextLine at h
  by_cases h1 : i + 1 < lines.length
  · rw [if_pos h1] at h
    simp only [] at h
    by_cases hg : pyStrip (splitFirst stopRE (pyStrip (lines.getD (i + 1) ""))) ≠ "" ∧
        2 < (pyStrip (splitFirst stopRE (pyStrip (lines.getD (i + 1) "")))).length
    · rw [if_pos hg] at h
      injection h with h2
      subst h2
      exact normalize_of_strip_big _ hg.2
    · rw [if_neg hg] at h; cases h
  · rw [if_neg h1] at h; cases h

theorem scanFirmLabels_big (lines : List String) :
    ∀ (fuel i : Nat) (r : String),
      scanFirmLabels lines fuel i = some r → 2 < r.length := by
  intro fuel
  induction fuel with
  | zero => intro i r h; cases h
  | succ fuel ih =>
    intro i r h
    simp only [scanFirmLabels] at h
    by_cases h1 : i < lines.length ∧ i < 20
    · rw [if_pos h1] at h
      by_cases h2 : (pySearch firmLabelRE (lines.getD i "")).isSome = true
      · rw [if_pos h2] at h
        cases h3 : firmSameLine (lines.getD i "") with
        | some r2 =>
          rw [h3] at h
          injection h with h4
          subst h4
          exact firmSameLine_big _ _ h3
        | none =>
          rw [h3] at h
          cases h4 : firmNextLine lines i with
          | some r2 =>
            rw [h4] at h
            injection h with h5
            subst h5
            exact firmNextLine_big _ _ _ h4
          | none =>
            rw [h4] at h
            exact ih _ _ h
      · rw [if_neg h2] at h
        exact ih _ _ h
    · rw [if_neg h1] at h; cases h

theorem greetScan_big : ∀ (ls : List String) (r : String),
    greetScan ls = some r → 2 < r.length := by
  intro ls
  induction ls with
  | nil => intro r h; cases h
  | cons line rest ih =>
    intro r h
    simp only [greetScan] at h
    cases hm : pySearch greetRE line with
    | none => rw [hm] at h; exact ih r h
    | some m =>
      rw [hm] at h
      simp only [] at h
      by_cases h1 : hasHonorific (pyStrip (capStr m 1)) = true
      · rw [if_pos h1] at h
        exact ih r h
      · rw [if_neg h1] at h
        by_cases h2 : 2 < (pyStrip (capStr m 1)).length
        · rw [if_pos h2] at h
          injection h with h3
          subst h3
          exact normalize_of_strip_big _ h2
        · rw [if_neg h2] at h
          exact ih r h

theorem extract_field_shape : ∀ (ps : List RE) (text : String),
    extract_field ps text = "" ∨ ∃ y, extract_field ps text = pyStrip y := by
  intro ps
  induction ps with
  | nil => intro text; left; rfl
  | cons p ps2 ih =>
    intro text
    unfold extract_field
    cases pySearch p text with
    | none => exact ih text
    | some m =>
      right
      exact ⟨_, rfl⟩

theorem firmPage_big (p r : String) (h : firmPage p = some r) : 2 < r.length := by
  unfold firmPage at h
  by_cases he : (pyLines p).isEmpty = true
  · rw [if_pos he] at h; cases h
  · rw [if_neg he] at h
    cases hs : scanFirmLabels (pyLines p) 20 0 with
    | some r2 =>
      rw [hs] at h
      injection h with h2
      subst h2
      exact scanFirmLabels_big _ _ _ _ hs
    | none =>
      rw [hs] at h
      simp only [] at h
      by_cases hg : extract_field FIRM_PATTERNS
            (String.intercalate "\n" ((pyLines p).take 12)) ≠ "" ∧
          2 < (extract_field FIRM_PATTERNS
            (String.intercalate "\n" ((pyLines p).take 12))).length
      · rw [if_pos hg] at h
        injection h with h2
        subst h2
        rcases extract_field_shape FIRM_PATTERNS
            (String.intercalate "\n" ((pyLines p).take 12)) with hez | ⟨y, hy⟩
        · exact absurd hez hg.1
        · rw [hy]
          refine normalize_of_strip_big y ?_
          rw [← hy]
          exact hg.2
      · rw [if_neg hg] at h
        exact greetScan_big _ _ h

theorem firmPages_shape : ∀ (pgs : List String),
    firmPages pgs = "" ∨ 2 < (firmPages pgs).length := by
  intro pgs
  induction pgs with
  | nil => left; rfl
  | cons p rest ih =>
    simp only [firmPages]
    cases hp : firmPage p with
    | some r => right; exact firmPage_big p r hp
    | none => exact ih

/-- C8, counterexample: `extract_subject` does not reject short
candidates — a two-character subject is returned as is. -/
theorem c8_counterexample :
    extract_subject ["Konu: AB"] = "AB" ∧
    extract_subject ["Konu: AB"] ≠ "" ∧
    ¬ 2 < (extract_subject ["Konu: AB"]).length := by
  refine ⟨by decide, by decide, by decide⟩

/-- C8, amended: the length-gt-2 noise guard holds for `extract_firm`
only — every non-empty string it returns is longer than 2 characters
(each return site checks the candidate and `normalize_firm_name` never
shrinks a stripped candidate); `extract_subject` has no such guard. -/
theorem c8_firm_length_amended :
    ∀ pages, extract_firm pages ≠ "" → 2 < (extract_firm pages).length := by
  intro pages hne
  rcases firmPages_shape (pages.take 3) with h | h
  · exact absurd h hne
  · exact h

/-- Closed corollary of the amended C8 at a concrete page list,
discharging its non-emptiness hypothesis there. -/
theorem c8_firm_length_amended_witness :
    2 < (extract_firm ["Firma: Acme"]).length :=
  c8_firm_length_amended ["Firma: Acme"] (by decide)

theorem take200_le (s : String) : (take200 s).length ≤ 200 := by
  unfold take200
  rw [string_length_data]
  simp only [List.length_take]
  exact Nat.min_le_left _ _

theorem subjSameLine_le (line r : String) (h : subjSameLine line = some r) :
    r.length ≤ 200 := by
  unfold subjSameLine at h
  cases hm : pySearch subjExtractRE line with
  | none => rw [hm] at h; cases h
  | some m =>
    rw [hm] at h
    injection h with h2
    subst h2
    exact take200_le _

theorem scanSubjLabels_le (lines : List String) :
    ∀ (fuel i : Nat) (r : String),
      scanSubjLabels lines fuel i = some r → r.length ≤ 200 := by
  intro fuel
  induction fuel with
  | zero => intro i r h; cases h
  | succ fuel ih =>
    intro i r h
    simp only [scanSubjLabels] at h
    by_cases h1 : i < lines.length ∧ i < 25
    · rw [if_pos h1] at h
      by_cases h2 : (pySearch subjLabelRE (lines.getD i "")).isSome = true
      · rw [if_pos h2] at h
        cases h3 : subjSameLine (lines.getD i "") with
        | some r2 =>
          rw [h3] at h
          injection h with h4
          subst h4
          exact subjSameLine_le _ _ h3
        | none =>
          rw [h3] at h
          by_cases h4 : i + 1 < lines.length
          · rw [if_pos h4] at h
            injection h with h5
            subst h5
            exact take200_le _
          · rw [if_neg h4] at h
            exact ih _ _ h
      · rw [if_neg h2] at h
        exact ih _ _ h
    · rw [if_neg h1] at h; cases h

/-- The header-block fallback of `extract_subject`: `extract_field`
over the first 18 non-blank lines of a page — the one return path
without the 200-character truncation. -/
def subjectFallback (page : String) : String :=
  extract_field SUBJECT_PATTERNS (String.intercalate "\n" ((pyLines page).take 18))

theorem subjPage_shape (p r : String) (h : subjPage p = some r) :
    r.length ≤ 200 ∨ r = subjectFallback p := by
  unfold subjPage at h
  by_cases he : (pyLines p).isEmpty = true
  · rw [if_pos he] at h; cases h
  · rw [if_neg he] at h
    cases hs : scanSubjLabels (pyLines p) 25 0 with
    | some r2 =>
      rw [hs] at h
      injection h with h2
      subst h2
      left
      exact scanSubjLabels_le _ _ _ _ hs
    | none =>
      rw [hs] at h
      simp only [] at h
      by_cases hg : extract_field SUBJECT_PATTERNS
          (String.intercalate "\n" ((pyLines p).take 18)) ≠ ""
      · rw [if_pos hg] at h
        injection h with h2
        subst h2
        right
        rfl
      · rw [if_neg hg] at h; cases h

theorem subjPages_shape : ∀ (pgs : List String),
    (subjPages pgs).length ≤ 200 ∨
      ∃ p ∈ pgs, subjPages pgs = subjectFallback p := by
  intro pgs
  induction pgs with
  | nil => left; decide
  | cons p rest ih =>
    simp only [subjPages]
    cases hp : subjPage p with
    | some r =>
      rcases subjPage_shape p r hp with hle | heq
      · left; exact hle
      · right; exact ⟨p, List.mem_cons_self p rest, heq⟩
    | none =>
      rcases ih with hle | ⟨q, hq, heq⟩
      · left; exact hle
      · right; exact ⟨q, List.mem_cons_of_mem p hq, heq⟩

set_option maxRecDepth 40000 in
/-- C7, counterexample: a subject found only by the header-block
fallback is returned untruncated — here 201 characters long. -/
theorem c7_counterexample :
    (extract_subject [String.mk ("Subject: ".data ++ List.replicate 201 'a')]).length = 201 ∧
    ¬ (extract_subject [String.mk ("Subject: ".data ++ List.replicate 201 'a')]).length ≤ 200 := by
  refine ⟨by decide, by decide⟩

/-- C7, amended: every subject returned by the Konu-label same-line and
next-line paths is truncated to 200 characters; the only other
non-empty return is the untruncated header-block fallback
`extract_field SUBJECT_PATTERNS` of one of the pages. -/
theorem c7_subject_length_amended :
    ∀ pages, (extract_subject pages).length ≤ 200 ∨
      ∃ p ∈ pages, extract_subject pages = subjectFallback p := by
  intro pages
  rcases subjPages_shape (pages.take 3) with h | ⟨p, hp, heq⟩
  · left; exact h
  · right; exact ⟨p, List.take_subset 3 pages hp, heq⟩

end Teklif
